import Mathlib

/-!
Verification of the csv-search-webapp tabular data engine.

The repository (src/script.js and the scripts in src/unnamed/part_000) is a
thin client over two libraries: PapaParse (CSV parsing with
`header: true, dynamicTyping: true, skipEmptyLines: true`, and a header
transform that trims whitespace) and DataTables (filtering, sorting,
pagination, column visibility).  The engine behaviour those libraries
provide is specified in spec.md sections 3, 4 and 8; the code in the
repository configures and invokes it.  Accordingly:

* glue logic that lives in the repository (error aborts in the parse
  callbacks, the empty-data early return of `displayData`, the positional
  `Object.values(row)[index]` cell accessor, the guarded `loadPreferences`)
  is embedded directly from the source;
* the parser / serializer / view-engine behaviour delegated to the
  libraries is modelled from the spec (each such definition carries a
  `Modelled from the spec:` doc comment).

All definitions are executable; machine integers are `Int`/`Nat` (the CSV
cell values involved are exact decimals, modelled as integer mantissa and
decimal exponent rather than floating point).
-/

namespace CsvApp

/-! ### Characters and digits -/

/-- Decimal digit character for a digit value (0–9); values ≥ 9 clamp to '9'.
Only applied to values < 10. -/
def digitToChar (d : Nat) : Char :=
  match d with
  | 0 => '0' | 1 => '1' | 2 => '2' | 3 => '3' | 4 => '4'
  | 5 => '5' | 6 => '6' | 7 => '7' | 8 => '8' | _ => '9'

/-- Numeric value of a decimal digit character. -/
def digitVal (c : Char) : Nat := c.toNat - 48

/-- Test for a decimal digit character. -/
def isDig (c : Char) : Bool := 48 ≤ c.toNat && c.toNat ≤ 57

/-- Whitespace test used by the header trim (models JavaScript
`String.prototype.trim` on the whitespace the CSV dialect can contain). -/
def isWS (c : Char) : Bool := c = ' ' || c = '\t' || c = '\n' || c = '\r'

/-- Characters that are special in the CSV dialect (delimiter, quote,
line breaks): the "pathological characters" of the round-trip law. -/
def pathCh (c : Char) : Prop := c = ',' ∨ c = '"' ∨ c = '\n' ∨ c = '\r'

instance (c : Char) : Decidable (pathCh c) := by unfold pathCh; infer_instance

/-- Trim surrounding whitespace from a character list (models the
`transformHeader: header.trim()` configuration of both parse call sites). -/
def trimChars (l : List Char) : List Char :=
  ((l.dropWhile isWS).reverse.dropWhile isWS).reverse

/-- Lower-case image of a character list (for case-insensitive search and
boolean parsing). -/
def lowerL (l : List Char) : List Char := l.map Char.toLower

/-! ### Numeric parsing (Modelled from the spec: §4.1 type inference
"attempt integer parse, then floating-point parse, then boolean
(true/false case-insensitive), else treat as string; an empty field is
null" — the repository delegates this to PapaParse `dynamicTyping`). -/

/-- Value of a most-significant-first digit string. -/
def digitsVal (l : List Char) : Nat :=
  l.foldl (fun a c => 10 * a + digitVal c) 0

/-- Parse a non-empty all-digit string as a natural number. -/
def natParse (l : List Char) : Option Nat :=
  if !l.isEmpty && l.all isDig then some (digitsVal l) else none

/-- Modelled from the spec: the integer parse of §4.1 — an optional leading
minus sign followed by one or more decimal digits. -/
def intParse (l : List Char) : Option Int :=
  match l with
  | [] => none
  | c :: rest =>
    if c = '-' then (natParse rest).map (fun n => -(n : Int))
    else (natParse l).map (fun n => (n : Int))

/-- Structural splitter: first component is the segment before the first
separator, second the remaining segments.  Total and never empty (the
result list of `splitOnChar` always has the head/tail shape). -/
def splitCh (sep : Char) : List Char → List Char × List (List Char)
  | [] => ([], [])
  | c :: rest =>
    let p := splitCh sep rest
    if c = sep then ([], p.1 :: p.2) else (c :: p.1, p.2)

/-- Split a character list at every occurrence of `sep`. -/
def splitOnChar (sep : Char) (l : List Char) : List (List Char) :=
  (splitCh sep l).1 :: (splitCh sep l).2

/-- Join segments with a separator character (inverse of `splitOnChar` on
separator-free segments). -/
def joinSep (sep : Char) : List (List Char) → List Char
  | [] => []
  | [x] => x
  | x :: y :: tl => x ++ sep :: joinSep sep (y :: tl)

/-- Modelled from the spec: the floating-point parse of §4.1, restricted to
plain decimals — digits, one decimal point, at least one digit on each
side.  The result is the pair (scaled mantissa, number of fraction
digits), an exact representation of the decimal value. -/
def floatParseNN (l : List Char) : Option (Nat × Nat) :=
  match splitOnChar '.' l with
  | [a, b] =>
    if !a.isEmpty && !b.isEmpty && (a ++ b).all isDig then
      some (digitsVal (a ++ b), b.length)
    else none
  | _ => none

/-- Modelled from the spec: signed floating-point parse (see
`floatParseNN`). -/
def floatParse (l : List Char) : Option (Int × Nat) :=
  match l with
  | [] => none
  | c :: rest =>
    if c = '-' then (floatParseNN rest).map (fun p => (-(p.1 : Int), p.2))
    else (floatParseNN l).map (fun p => ((p.1 : Int), p.2))

/-- Modelled from the spec: boolean parse — "true"/"false",
case-insensitive. -/
def boolParse (l : List Char) : Option Bool :=
  if lowerL l = ['t', 'r', 'u', 'e'] then some true
  else if lowerL l = ['f', 'a', 'l', 's', 'e'] then some false
  else none

/-! ### Cells -/

/-- A typed cell value (spec §3: integer, floating-point, boolean, string,
null — inferred per value).  A floating-point cell is the exact decimal
`m / 10^e`. -/
inductive Cell where
  | null : Cell
  | int (n : Int) : Cell
  | float (m : Int) (e : Nat) : Cell
  | bool (b : Bool) : Cell
  | str (s : String) : Cell
deriving DecidableEq, Repr

/-- Modelled from the spec: per-cell type inference (§4.1): an empty field
is null; otherwise attempt the integer parse, then the floating-point
parse, then the boolean parse, and fall back to a string. -/
def inferCell (l : List Char) : Cell :=
  if l = [] then .null
  else
    match intParse l with
    | some n => .int n
    | none =>
      match floatParse l with
      | some p => .float p.1 p.2
      | none =>
        match boolParse l with
        | some b => .bool b
        | none => .str (String.mk l)

/-- Modelled from the spec: a parsed data row maps type inference over its
fields, each cell independent of every other row and column ("type
inference is per-cell, not per-column"). -/
def inferRow (fields : List (List Char)) : List Cell := fields.map inferCell

/-! ### Cell rendering (used by the Serializer and by search) -/

/-- Little-endian digit list of `n`, computed with `fuel ≥ n` steps so the
definition is structural (and hence evaluates inside the kernel). -/
def natDigitsRevF : Nat → Nat → List Nat
  | 0, _ => []
  | f + 1, n => if n = 0 then [] else n % 10 :: natDigitsRevF f (n / 10)

/-- Decimal digit characters of a natural number. -/
def natChars (n : Nat) : List Char :=
  if n = 0 then ['0'] else ((natDigitsRevF n n).map digitToChar).reverse

/-- Decimal rendering of an integer. -/
def intChars (n : Int) : List Char :=
  if n < 0 then '-' :: natChars n.natAbs else natChars n.natAbs

/-- Left-pad with '0' to at least `k` characters. -/
def padZeros (k : Nat) (l : List Char) : List Char :=
  List.replicate (k - l.length) '0' ++ l

/-- Decimal rendering of the exact float `m / 10^e` with `e` fraction
digits. -/
def floatChars (m : Int) (e : Nat) : List Char :=
  (if m < 0 then ['-'] else []) ++
    (padZeros (e + 1) (natChars m.natAbs)).take
      ((padZeros (e + 1) (natChars m.natAbs)).length - e) ++
    '.' :: (padZeros (e + 1) (natChars m.natAbs)).drop
      ((padZeros (e + 1) (natChars m.natAbs)).length - e)

/-- String form of a cell as it appears in a CSV field and in the table
(null renders as the empty string, booleans as "true"/"false"). -/
def cellChars : Cell → List Char
  | .null => []
  | .int n => intChars n
  | .float m e => floatChars m e
  | .bool b => if b then ['t', 'r', 'u', 'e'] else ['f', 'a', 'l', 's', 'e']
  | .str s => s.data

/-! ### Delimited-text tokenizer (Modelled from the spec: §4.1 and §6 —
comma delimiter, RFC-4180-style quoting with doubled embedded quotes.
The repository delegates tokenization to PapaParse.) -/

/-- Tokenizer state: inside a plain field, inside a quoted field, or just
past a quote character while inside a quoted field (which either closes
the field or, doubled, denotes an escaped quote). -/
inductive TkSt where
  | plain : TkSt
  | quoted : TkSt
  | closeQ : TkSt

/-- Modelled from the spec: one-character-per-step CSV tokenizer.  `cur` is
the field being read, `row` the fields finished on the current line.  A
carriage return outside quotes is skipped (CRLF line endings); a quote
opens a quoted field only at the start of a field; any character after a
closing quote is kept as plain text (leniency choice, documented per
§4.1's instruction to fix one policy). -/
def tokAux : TkSt → List Char → List (List Char) → List Char → List (List (List Char))
  | _, cur, row, [] => [row ++ [cur]]
  | .plain, cur, row, c :: rest =>
    if c = '"' ∧ cur = [] then tokAux .quoted cur row rest
    else if c = ',' then tokAux .plain [] (row ++ [cur]) rest
    else if c = '\n' then (row ++ [cur]) :: tokAux .plain [] [] rest
    else if c = '\r' then tokAux .plain cur row rest
    else tokAux .plain (cur ++ [c]) row rest
  | .quoted, cur, row, c :: rest =>
    if c = '"' then tokAux .closeQ cur row rest
    else tokAux .quoted (cur ++ [c]) row rest
  | .closeQ, cur, row, c :: rest =>
    if c = '"' then tokAux .quoted (cur ++ ['"']) row rest
    else if c = ',' then tokAux .plain [] (row ++ [cur]) rest
    else if c = '\n' then (row ++ [cur]) :: tokAux .plain [] [] rest
    else if c = '\r' then tokAux .closeQ cur row rest
    else tokAux .plain (cur ++ [c]) row rest

/-- Tokenize raw text into rows of fields. -/
def tokenize (l : List Char) : List (List (List Char)) :=
  tokAux .plain [] [] l

/-! ### Parser and Serializer (Modelled from the spec: §4.1, §4.4) -/

/-- Modelled from the spec: §4.1 row/column alignment — "a row with fewer
fields than the header is padded with null cells"; a row with more fields
is truncated (the policy this development fixes, per §4.1's instruction
to decide one explicitly). -/
def alignRow (n : Nat) (cs : List Cell) : List Cell :=
  cs.take n ++ List.replicate (n - cs.length) Cell.null

/-- Modelled from the spec: header extraction and record typing over the
tokenized, empty-line-free rows — the first row is the header (each name
trimmed), the remaining rows get per-cell type inference and alignment.
Fails (None) when no header row exists. -/
def parseRows (rows : List (List (List Char))) : Option (List String × List (List Cell)) :=
  match rows with
  | [] => none
  | hrow :: rest =>
    let hdr := hrow.map (fun f => String.mk (trimChars f))
    some (hdr, rest.map (fun r => alignRow hdr.length (inferRow r)))

/-- Modelled from the spec: the Parser of §4.1 under the configuration both
call sites use (`header: true, dynamicTyping: true, skipEmptyLines: true`,
headers trimmed).  Empty lines tokenize to the single-empty-field row and
are skipped (skipEmptyLines). -/
def parseCSV (s : String) : Option (List String × List (List Cell)) :=
  parseRows ((tokenize s.data).filter (fun r => r ≠ [[]]))

/-- A field needing quotes: it contains the delimiter, the quote character
or a line break (spec §4.4). -/
def needsQuote (f : List Char) : Bool :=
  f.any (fun c => c = ',' || c = '"' || c = '\n' || c = '\r')

/-- Double every quote character (round-trip-safe escaping, spec §4.4). -/
def escapeQ (f : List Char) : List Char :=
  f.foldr (fun c acc => if c = '"' then '"' :: '"' :: acc else c :: acc) []

/-- Render one field, quoting when needed (spec §4.4). -/
def fieldOut (f : List Char) : List Char :=
  if needsQuote f then '"' :: (escapeQ f ++ ['"']) else f

/-- Render one line of fields. -/
def lineOut (fs : List (List Char)) : List Char :=
  joinSep ',' (fs.map fieldOut)

/-- Modelled from the spec: the Serializer of §4.4 — header line, then one
line per record, quoting any cell containing delimiter, quote or line
break (the repository delegates this to `Papa.unparse`). -/
def serializeCSV (hdr : List String) (rs : List (List Cell)) : String :=
  String.mk (joinSep '\n'
    (lineOut (hdr.map (·.data)) :: rs.map (fun r => lineOut (r.map cellChars))))

/-! ### Well-formedness: the "no pathological characters" side conditions
of the round-trip law (spec §8). -/

/-- A header name with no pathological content: non-empty, stable under the
parser's trim, and free of delimiter/quote/line-break characters. -/
def wfName (l : List Char) : Prop :=
  l ≠ [] ∧ trimChars l = l ∧ ∀ c ∈ l, ¬ pathCh c

instance (l : List Char) : Decidable (wfName l) := by unfold wfName; infer_instance

/-- A cell the type-inference parse maps back to itself: floats keep at
least one fraction digit, and a string cell is non-empty, free of
pathological characters, and not itself parseable as a number or
boolean (exactly the values `inferCell` can produce). -/
def wfCell : Cell → Prop
  | .null => True
  | .int _ => True
  | .float _ e => 1 ≤ e
  | .bool _ => True
  | .str s => s.data ≠ [] ∧ (∀ c ∈ s.data, ¬ pathCh c) ∧
      intParse s.data = none ∧ floatParse s.data = none ∧ boolParse s.data = none

instance (c : Cell) : Decidable (wfCell c) := by
  unfold wfCell; cases c <;> infer_instance

/-! ### Digit-level round-trip lemmas -/

/-- Value of a little-endian digit list. -/
def ofRev : List Nat → Nat
  | [] => 0
  | d :: ds => d + 10 * ofRev ds

theorem mem_natDigitsRevF_lt : ∀ f n, n ≤ f → ∀ d ∈ natDigitsRevF f n, d < 10 := by
  intro f
  induction f with
  | zero => intro n _ d hd; simp [natDigitsRevF] at hd
  | succ f ih =>
    intro n hn d hd
    by_cases h0 : n = 0
    · simp [natDigitsRevF, h0] at hd
    · simp only [natDigitsRevF, if_neg h0, List.mem_cons] at hd
      rcases hd with h | h
      · omega
      · exact ih (n / 10) (by omega) d h

theorem ofRev_natDigitsRevF : ∀ f n, n ≤ f → ofRev (natDigitsRevF f n) = n := by
  intro f
  induction f with
  | zero => intro n hn; interval_cases n; rfl
  | succ f ih =>
    intro n hn
    by_cases h0 : n = 0
    · simp [natDigitsRevF, h0, ofRev]
    · simp only [natDigitsRevF, if_neg h0, ofRev]
      rw [ih (n / 10) (by omega)]
      omega

theorem natDigitsRevF_ne_nil (n : Nat) (h : n ≠ 0) : natDigitsRevF n n ≠ [] := by
  cases n with
  | zero => exact absurd rfl h
  | succ m => simp [natDigitsRevF]

theorem digitVal_digitToChar (d : Nat) (h : d < 10) : digitVal (digitToChar d) = d := by
  interval_cases d <;> decide

theorem isDig_digitToChar (d : Nat) (h : d < 10) : isDig (digitToChar d) = true := by
  interval_cases d <;> decide

theorem isDig_not_path {c : Char} (h : isDig c = true) : ¬ pathCh c := by
  intro hp
  rcases hp with rfl | rfl | rfl | rfl <;> simp [isDig] at h

theorem isDig_ne_dash {c : Char} (h : isDig c = true) : c ≠ '-' := by
  rintro rfl; simp [isDig] at h

theorem isDig_ne_dot {c : Char} (h : isDig c = true) : c ≠ '.' := by
  rintro rfl; simp [isDig] at h

theorem digitsVal_append_singleton (x : List Char) (c : Char) :
    digitsVal (x ++ [c]) = 10 * digitsVal x + digitVal c := by
  unfold digitsVal
  rw [List.foldl_append]
  rfl

theorem digitsVal_map_rev (ds : List Nat) (h : ∀ d ∈ ds, d < 10) :
    digitsVal ((ds.map digitToChar).reverse) = ofRev ds := by
  induction ds with
  | nil => rfl
  | cons d ds ih =>
    have h1 : ((d :: ds).map digitToChar).reverse
        = (ds.map digitToChar).reverse ++ [digitToChar d] := by
      simp
    rw [h1, digitsVal_append_singleton, ih (fun x hx => h x (List.mem_cons_of_mem _ hx)),
      digitVal_digitToChar d (h d (List.mem_cons_self _ _))]
    simp [ofRev]; ring

theorem digitsVal_natChars (n : Nat) : digitsVal (natChars n) = n := by
  by_cases h0 : n = 0
  · subst h0; decide
  · unfold natChars
    rw [if_neg h0, digitsVal_map_rev _ (mem_natDigitsRevF_lt n n le_rfl),
      ofRev_natDigitsRevF n n le_rfl]

theorem natChars_all_isDig (n : Nat) : ∀ c ∈ natChars n, isDig c = true := by
  intro c hc
  by_cases h0 : n = 0
  · subst h0; simp [natChars] at hc; subst hc; decide
  · unfold natChars at hc
    rw [if_neg h0] at hc
    rw [List.mem_reverse, List.mem_map] at hc
    obtain ⟨d, hd, rfl⟩ := hc
    exact isDig_digitToChar d (mem_natDigitsRevF_lt n n le_rfl d hd)

theorem natChars_ne_nil (n : Nat) : natChars n ≠ [] := by
  by_cases h0 : n = 0
  · subst h0; simp [natChars]
  · unfold natChars
    rw [if_neg h0]
    simp [natDigitsRevF_ne_nil n h0]

theorem natParse_natChars (n : Nat) : natParse (natChars n) = some n := by
  have h1 : (!(natChars n).isEmpty && (natChars n).all isDig) = true := by
    rw [Bool.and_eq_true]
    constructor
    · simp [List.isEmpty_iff, natChars_ne_nil n]
    · rw [List.all_eq_true]
      exact natChars_all_isDig n
  unfold natParse
  rw [if_pos h1, digitsVal_natChars]

theorem natParse_none_of_bad {c : Char} {l : List Char} (hc : c ∈ l)
    (hd : isDig c = false) : natParse l = none := by
  unfold natParse
  rw [if_neg]
  intro h
  have := (List.all_eq_true.mp (Bool.and_elim_right h)) c hc
  rw [hd] at this
  exact Bool.false_ne_true this

theorem intParse_intChars (n : Int) : intParse (intChars n) = some n := by
  by_cases hn : n < 0
  · have h1 : intChars n = '-' :: natChars n.natAbs := by
      unfold intChars; rw [if_pos hn]
    rw [h1]
    simp [intParse, natParse_natChars]
    rw [abs_of_neg hn, neg_neg]
  · have h1 : intChars n = natChars n.natAbs := by
      unfold intChars; rw [if_neg hn]
    obtain ⟨c, cs, hcc⟩ := List.exists_cons_of_ne_nil (natChars_ne_nil n.natAbs)
    have hdig : isDig c = true := by
      apply natChars_all_isDig n.natAbs
      rw [hcc]; exact List.mem_cons_self _ _
    rw [h1, hcc]
    simp only [intParse, if_neg (isDig_ne_dash hdig), ← hcc, natParse_natChars]
    simp
    omega

/-! ### Splitter lemmas -/

theorem splitCh_sepNone {sep : Char} : ∀ {l : List Char}, sep ∉ l → splitCh sep l = (l, []) := by
  intro l
  induction l with
  | nil => intro _; rfl
  | cons c rest ih =>
    intro h
    have hc : ¬ c = sep := fun he => h (he ▸ List.mem_cons_self c rest)
    simp only [splitCh, if_neg hc, ih (fun hm => h (List.mem_cons_of_mem c hm))]

theorem splitCh_append {sep : Char} {r : List Char} :
    ∀ {a : List Char}, sep ∉ a →
      splitCh sep (a ++ sep :: r) = (a, (splitCh sep r).1 :: (splitCh sep r).2) := by
  intro a
  induction a with
  | nil => intro _; simp [splitCh]
  | cons c rest ih =>
    intro h
    have hc : ¬ c = sep := fun he => h (he ▸ List.mem_cons_self c rest)
    rw [List.cons_append]
    simp only [splitCh, if_neg hc]
    rw [ih (fun hm => h (List.mem_cons_of_mem c hm))]

theorem splitOnChar_sepNone {sep : Char} {l : List Char} (h : sep ∉ l) :
    splitOnChar sep l = [l] := by
  unfold splitOnChar
  rw [splitCh_sepNone h]

theorem splitOnChar_two {sep : Char} {a b : List Char} (ha : sep ∉ a) (hb : sep ∉ b) :
    splitOnChar sep (a ++ sep :: b) = [a, b] := by
  unfold splitOnChar
  rw [splitCh_append ha, splitCh_sepNone hb]

theorem splitOnChar_joinSep {sep : Char} :
    ∀ {ls : List (List Char)}, ls ≠ [] → (∀ x ∈ ls, sep ∉ x) →
      splitOnChar sep (joinSep sep ls) = ls := by
  intro ls
  induction ls with
  | nil => intro h; exact absurd rfl h
  | cons x tl ih =>
    intro _ hsep
    cases tl with
    | nil =>
      simp only [joinSep]
      exact splitOnChar_sepNone (hsep x (List.mem_cons_self _ _))
    | cons y tl2 =>
      have h1 : joinSep sep (x :: y :: tl2) = x ++ sep :: joinSep sep (y :: tl2) := rfl
      rw [h1]
      unfold splitOnChar
      rw [splitCh_append (hsep x (List.mem_cons_self _ _))]
      have h2 := ih (List.cons_ne_nil y tl2)
        (fun z hz => hsep z (List.mem_cons_of_mem x hz))
      unfold splitOnChar at h2
      dsimp only
      rw [h2]

/-! ### Float rendering round trip -/

theorem digitsVal_padZeros (k : Nat) (l : List Char) :
    digitsVal (padZeros k l) = digitsVal l := by
  unfold padZeros digitsVal
  rw [List.foldl_append]
  have h : ∀ m, List.foldl (fun a c => 10 * a + digitVal c) 0 (List.replicate m '0') = 0 := by
    intro m
    induction m with
    | zero => rfl
    | succ m ih => simpa [List.replicate_succ] using ih
  rw [h]

theorem padZeros_length (k : Nat) (l : List Char) :
    (padZeros k l).length = k - l.length + l.length := by
  simp [padZeros]

theorem padZeros_all_isDig (k : Nat) {l : List Char} (h : ∀ c ∈ l, isDig c = true) :
    ∀ c ∈ padZeros k l, isDig c = true := by
  intro c hc
  rcases List.mem_append.mp hc with hm | hm
  · rw [List.eq_of_mem_replicate hm]; decide
  · exact h c hm

theorem floatParseNN_split {ip fp : List Char} (hip : ip ≠ []) (hfp : fp ≠ [])
    (hd : ∀ c ∈ ip ++ fp, isDig c = true) :
    floatParseNN (ip ++ '.' :: fp) = some (digitsVal (ip ++ fp), fp.length) := by
  have hdip : ('.' : Char) ∉ ip := fun hm =>
    isDig_ne_dot (hd '.' (List.mem_append_left fp hm)) rfl
  have hdfp : ('.' : Char) ∉ fp := fun hm =>
    isDig_ne_dot (hd '.' (List.mem_append_right ip hm)) rfl
  have h3 : floatParseNN (ip ++ '.' :: fp) =
      if !ip.isEmpty && !fp.isEmpty && (ip ++ fp).all isDig then
        some (digitsVal (ip ++ fp), fp.length)
      else none := by
    unfold floatParseNN
    rw [splitOnChar_two hdip hdfp]
  rw [h3, if_pos]
  simp only [Bool.and_eq_true, Bool.not_eq_true', List.isEmpty_eq_false, List.all_eq_true]
  exact ⟨⟨hip, hfp⟩, hd⟩

theorem floatChars_shape (m : Int) (e : Nat) :
    floatChars m e = (if m < 0 then ['-'] else []) ++
      ((padZeros (e + 1) (natChars m.natAbs)).take
        ((padZeros (e + 1) (natChars m.natAbs)).length - e) ++
       '.' :: (padZeros (e + 1) (natChars m.natAbs)).drop
        ((padZeros (e + 1) (natChars m.natAbs)).length - e)) := by
  unfold floatChars
  rw [List.append_assoc]

theorem padZeros_len_ge (k : Nat) (l : List Char) : k ≤ (padZeros k l).length := by
  rw [padZeros_length]; omega

theorem floatParse_floatChars (m : Int) (e : Nat) (he : 1 ≤ e) :
    floatParse (floatChars m e) = some (m, e) := by
  have hlen := padZeros_len_ge (e + 1) (natChars m.natAbs)
  have hdig := padZeros_all_isDig (e + 1) (natChars_all_isDig m.natAbs)
  have htd := List.take_append_drop
    ((padZeros (e + 1) (natChars m.natAbs)).length - e) (padZeros (e + 1) (natChars m.natAbs))
  have hipne : (padZeros (e + 1) (natChars m.natAbs)).take
      ((padZeros (e + 1) (natChars m.natAbs)).length - e) ≠ [] := by
    rw [← List.length_pos, List.length_take]
    omega
  have hfpne : (padZeros (e + 1) (natChars m.natAbs)).drop
      ((padZeros (e + 1) (natChars m.natAbs)).length - e) ≠ [] := by
    rw [← List.length_pos, List.length_drop]
    omega
  have hfplen : ((padZeros (e + 1) (natChars m.natAbs)).drop
      ((padZeros (e + 1) (natChars m.natAbs)).length - e)).length = e := by
    rw [List.length_drop]; omega
  have hnn := floatParseNN_split hipne hfpne
    (fun c hc => hdig c (htd ▸ hc))
  rw [htd, digitsVal_padZeros, digitsVal_natChars, hfplen] at hnn
  by_cases hm : m < 0
  · rw [floatChars_shape, if_pos hm, List.singleton_append]
    have harm : floatParse ('-' :: ((padZeros (e + 1) (natChars m.natAbs)).take
        ((padZeros (e + 1) (natChars m.natAbs)).length - e) ++
        '.' :: (padZeros (e + 1) (natChars m.natAbs)).drop
          ((padZeros (e + 1) (natChars m.natAbs)).length - e))) =
        (floatParseNN ((padZeros (e + 1) (natChars m.natAbs)).take
          ((padZeros (e + 1) (natChars m.natAbs)).length - e) ++
          '.' :: (padZeros (e + 1) (natChars m.natAbs)).drop
            ((padZeros (e + 1) (natChars m.natAbs)).length - e))).map
          (fun p => (-(p.1 : Int), p.2)) := by
      simp only [floatParse, if_pos]
    rw [harm, hnn, Option.map_some']
    have hco : (-((m.natAbs : Nat) : Int)) = m := by omega
    rw [hco]
  · rw [floatChars_shape, if_neg hm, List.nil_append]
    obtain ⟨c, cs, hcc⟩ := List.exists_cons_of_ne_nil hipne
    have hcd : isDig c = true := by
      apply hdig
      rw [← htd, hcc]
      exact List.mem_append_left _ (List.mem_cons_self _ _)
    rw [hcc, List.cons_append]
    have harm : floatParse (c :: (cs ++ '.' :: (padZeros (e + 1) (natChars m.natAbs)).drop
        ((padZeros (e + 1) (natChars m.natAbs)).length - e))) =
        (floatParseNN (c :: (cs ++ '.' :: (padZeros (e + 1) (natChars m.natAbs)).drop
          ((padZeros (e + 1) (natChars m.natAbs)).length - e)))).map
          (fun p => ((p.1 : Int), p.2)) := by
      simp only [floatParse, if_neg (isDig_ne_dash hcd)]
    rw [harm, ← List.cons_append, ← hcc, hnn, Option.map_some']
    have hco : (((m.natAbs : Nat) : Int)) = m := by omega
    rw [hco]

theorem dot_mem_floatChars (m : Int) (e : Nat) : ('.' : Char) ∈ floatChars m e := by
  rw [floatChars_shape]
  exact List.mem_append_right _ (List.mem_append_right _ (List.mem_cons_self _ _))

theorem intParse_floatChars (m : Int) (e : Nat) : intParse (floatChars m e) = none := by
  by_cases hm : m < 0
  · have hsh := floatChars_shape m e
    rw [if_pos hm] at hsh
    have hcons : floatChars m e = '-' ::
        ((padZeros (e + 1) (natChars m.natAbs)).take
          ((padZeros (e + 1) (natChars m.natAbs)).length - e) ++
         '.' :: (padZeros (e + 1) (natChars m.natAbs)).drop
          ((padZeros (e + 1) (natChars m.natAbs)).length - e)) := hsh
    rw [hcons]
    simp only [intParse, if_pos rfl]
    rw [natParse_none_of_bad
      (List.mem_append_right _ (List.mem_cons_self _ _)) (by decide : isDig '.' = false)]
    rfl
  · have hsh := floatChars_shape m e
    rw [if_neg hm, List.nil_append] at hsh
    have hdot := dot_mem_floatChars m e
    obtain ⟨c, cs, hcc⟩ : ∃ c cs, floatChars m e = c :: cs := by
      cases hfc : floatChars m e with
      | nil => rw [hfc] at hdot; exact absurd hdot (List.not_mem_nil _)
      | cons c cs => exact ⟨c, cs, rfl⟩
    have hcd : isDig c = true := by
      have : c ∈ floatChars m e := by rw [hcc]; exact List.mem_cons_self _ _
      rw [hsh] at this
      rcases List.mem_append.mp this with hm1 | hm1
      · exact padZeros_all_isDig (e + 1) (natChars_all_isDig m.natAbs) c
          (List.take_subset _ _ hm1)
      · rcases List.mem_cons.mp hm1 with rfl | hm2
        · -- c = '.' : impossible, the head is a digit of the non-empty integer part
          exfalso
          have hipne : (padZeros (e + 1) (natChars m.natAbs)).take
              ((padZeros (e + 1) (natChars m.natAbs)).length - e) ≠ [] := by
            rw [← List.length_pos, List.length_take]
            have := padZeros_len_ge (e + 1) (natChars m.natAbs)
            omega
          obtain ⟨d, ds, hds⟩ := List.exists_cons_of_ne_nil hipne
          have hdig2 : isDig d = true := by
            apply padZeros_all_isDig (e + 1) (natChars_all_isDig m.natAbs)
            exact List.take_subset _ _ (hds ▸ List.mem_cons_self _ _)
          rw [hsh, hds] at hcc
          simp only [List.cons_append, List.cons.injEq] at hcc
          rw [hcc.1] at hdig2
          simp [isDig] at hdig2
        · exact padZeros_all_isDig (e + 1) (natChars_all_isDig m.natAbs) c
            (List.drop_subset _ _ hm2)
    rw [hcc]
    simp only [intParse, if_neg (isDig_ne_dash hcd)]
    rw [natParse_none_of_bad (hcc ▸ hdot) (by decide : isDig '.' = false)]
    rfl

/-! ### Cell-level round trip -/

theorem intChars_ne_nil (n : Int) : intChars n ≠ [] := by
  unfold intChars
  by_cases hn : n < 0
  · rw [if_pos hn]; exact List.cons_ne_nil _ _
  · rw [if_neg hn]; exact natChars_ne_nil _

theorem floatChars_ne_nil (m : Int) (e : Nat) : floatChars m e ≠ [] := by
  intro h
  exact List.not_mem_nil '.' (h ▸ dot_mem_floatChars m e)

theorem intChars_no_path (n : Int) : ∀ c ∈ intChars n, ¬ pathCh c := by
  intro c hc
  unfold intChars at hc
  by_cases hn : n < 0
  · rw [if_pos hn] at hc
    rcases List.mem_cons.mp hc with rfl | hm
    · decide
    · exact isDig_not_path (natChars_all_isDig _ c hm)
  · rw [if_neg hn] at hc
    exact isDig_not_path (natChars_all_isDig _ c hc)

theorem floatChars_no_path (m : Int) (e : Nat) : ∀ c ∈ floatChars m e, ¬ pathCh c := by
  intro c hc
  rw [floatChars_shape] at hc
  rcases List.mem_append.mp hc with hm | hm
  · by_cases hn : m < 0
    · rw [if_pos hn] at hm
      rw [List.mem_singleton.mp hm]; decide
    · rw [if_neg hn] at hm
      exact absurd hm (List.not_mem_nil c)
  · rcases List.mem_append.mp hm with hm1 | hm1
    · exact isDig_not_path (padZeros_all_isDig _ (natChars_all_isDig _) c
        (List.take_subset _ _ hm1))
    · rcases List.mem_cons.mp hm1 with rfl | hm2
      · decide
      · exact isDig_not_path (padZeros_all_isDig _ (natChars_all_isDig _) c
          (List.drop_subset _ _ hm2))

theorem cellChars_no_path {c : Cell} (h : wfCell c) : ∀ ch ∈ cellChars c, ¬ pathCh ch := by
  cases c with
  | null => intro ch hch; exact absurd hch (List.not_mem_nil ch)
  | int n => exact intChars_no_path n
  | float m e => exact floatChars_no_path m e
  | bool b => cases b <;> (intro ch hch; fin_cases hch <;> decide)
  | str s => exact h.2.1

theorem cellChars_ne_nil {c : Cell} (h : wfCell c) (hnn : c ≠ Cell.null) :
    cellChars c ≠ [] := by
  cases c with
  | null => exact absurd rfl hnn
  | int n => exact intChars_ne_nil n
  | float m e => exact floatChars_ne_nil m e
  | bool b => cases b <;> simp [cellChars]
  | str s => exact h.1

theorem inferCell_cellChars {c : Cell} (h : wfCell c) : inferCell (cellChars c) = c := by
  cases c with
  | null => rfl
  | int n =>
    unfold inferCell
    simp only [cellChars]
    rw [if_neg (intChars_ne_nil n)]
    show (match intParse (intChars n) with
      | some n => Cell.int n
      | none => _) = Cell.int n
    rw [intParse_intChars]
  | float m e =>
    unfold inferCell
    simp only [cellChars]
    rw [if_neg (floatChars_ne_nil m e)]
    show (match intParse (floatChars m e) with
      | some n => Cell.int n
      | none =>
        match floatParse (floatChars m e) with
        | some p => Cell.float p.1 p.2
        | none => _) = Cell.float m e
    rw [intParse_floatChars, floatParse_floatChars m e h]
  | bool b => cases b <;> decide
  | str s =>
    obtain ⟨hne, _, hi, hf, hb⟩ := h
    unfold inferCell
    simp only [cellChars]
    rw [if_neg hne]
    show (match intParse s.data with
      | some n => Cell.int n
      | none =>
        match floatParse s.data with
        | some p => Cell.float p.1 p.2
        | none =>
          match boolParse s.data with
          | some b => Cell.bool b
          | none => Cell.str (String.mk s.data)) = Cell.str s
    rw [hi, hf, hb]

/-! ### Tokenizer = line/field splitting on quote-free text -/

theorem tokAux_plain :
    ∀ (l : List Char), (∀ ch ∈ l, ch ≠ '"') → (∀ ch ∈ l, ch ≠ '\r') →
    ∀ cur row, tokAux .plain cur row l =
      (row ++ (cur ++ (splitCh ',' (splitCh '\n' l).1).1) :: (splitCh ',' (splitCh '\n' l).1).2)
        :: ((splitCh '\n' l).2.map (fun line => (splitCh ',' line).1 :: (splitCh ',' line).2)) := by
  intro l
  induction l with
  | nil =>
    intro _ _ cur row
    simp [tokAux, splitCh]
  | cons c rest ih =>
    intro hq hr cur row
    have hq1 : c ≠ '"' := hq c (List.mem_cons_self _ _)
    have hr1 : c ≠ '\r' := hr c (List.mem_cons_self _ _)
    have hq2 : ∀ ch ∈ rest, ch ≠ '"' := fun ch hm => hq ch (List.mem_cons_of_mem _ hm)
    have hr2 : ∀ ch ∈ rest, ch ≠ '\r' := fun ch hm => hr ch (List.mem_cons_of_mem _ hm)
    have hnotq : ¬ (c = '"' ∧ cur = []) := fun hand => hq1 hand.1
    by_cases hc1 : c = ','
    · subst hc1
      have h1 : tokAux .plain cur row (',' :: rest) = tokAux .plain [] (row ++ [cur]) rest := by
        simp only [tokAux, if_neg hnotq, if_pos rfl, if_true]
      rw [h1, ih hq2 hr2]
      have h2 : splitCh '\n' (',' :: rest) =
          (',' :: (splitCh '\n' rest).1, (splitCh '\n' rest).2) := by
        simp [splitCh]
      have h3 : splitCh ',' (',' :: (splitCh '\n' rest).1) =
          ([], (splitCh ',' (splitCh '\n' rest).1).1 :: (splitCh ',' (splitCh '\n' rest).1).2) := by
        simp [splitCh]
      rw [h2]
      dsimp only
      rw [h3]
      dsimp only
      simp
    · by_cases hc2 : c = '\n'
      · subst hc2
        have h1 : tokAux .plain cur row ('\n' :: rest) =
            (row ++ [cur]) :: tokAux .plain [] [] rest := by
          simp only [tokAux, if_neg hnotq, if_neg hc1, if_pos rfl, if_true]
        rw [h1, ih hq2 hr2 [] []]
        have h2 : splitCh '\n' ('\n' :: rest) =
            ([], (splitCh '\n' rest).1 :: (splitCh '\n' rest).2) := by
          simp [splitCh]
        rw [h2]
        dsimp only
        simp [splitCh]
      · have h1 : tokAux .plain cur row (c :: rest) =
            tokAux .plain (cur ++ [c]) row rest := by
          simp only [tokAux, if_neg hnotq, if_neg hc1, if_neg hc2, if_neg hr1]
        rw [h1, ih hq2 hr2 (cur ++ [c]) row]
        have h2 : splitCh '\n' (c :: rest) =
            (c :: (splitCh '\n' rest).1, (splitCh '\n' rest).2) := by
          simp [splitCh, hc2]
        have h3 : splitCh ',' (c :: (splitCh '\n' rest).1) =
            (c :: (splitCh ',' (splitCh '\n' rest).1).1,
             (splitCh ',' (splitCh '\n' rest).1).2) := by
          simp [splitCh, hc1]
        rw [h2]
        dsimp only
        rw [h3]
        dsimp only
        simp

theorem tokenize_split (l : List Char) (hq : ∀ ch ∈ l, ch ≠ '"')
    (hr : ∀ ch ∈ l, ch ≠ '\r') :
    tokenize l = (splitOnChar '\n' l).map (splitOnChar ',') := by
  unfold tokenize
  rw [tokAux_plain l hq hr [] []]
  unfold splitOnChar
  simp

/-! ### Serializer line structure -/

theorem mem_joinSep {sep : Char} :
    ∀ {ls : List (List Char)} {c : Char}, c ∈ joinSep sep ls →
      c = sep ∨ ∃ x ∈ ls, c ∈ x := by
  intro ls
  induction ls with
  | nil => intro c hc; exact absurd hc (List.not_mem_nil c)
  | cons x tl ih =>
    intro c hc
    cases tl with
    | nil =>
      right
      exact ⟨x, List.mem_cons_self _ _, hc⟩
    | cons y tl2 =>
      have hxc : c ∈ x ++ sep :: joinSep sep (y :: tl2) := hc
      rcases List.mem_append.mp hxc with hm | hm
      · exact Or.inr ⟨x, List.mem_cons_self _ _, hm⟩
      · rcases List.mem_cons.mp hm with rfl | hm2
        · exact Or.inl rfl
        · rcases ih hm2 with h | ⟨z, hz, hcz⟩
          · exact Or.inl h
          · exact Or.inr ⟨z, List.mem_cons_of_mem _ hz, hcz⟩

theorem fieldOut_id {f : List Char} (h : ∀ c ∈ f, ¬ pathCh c) : fieldOut f = f := by
  unfold fieldOut
  rw [if_neg]
  intro hq
  obtain ⟨c, hc, hcp⟩ := List.any_eq_true.mp hq
  apply h c hc
  unfold pathCh
  simp only [Bool.or_eq_true, decide_eq_true_eq] at hcp
  tauto

theorem lineOut_id {fs : List (List Char)} (h : ∀ f ∈ fs, ∀ c ∈ f, ¬ pathCh c) :
    lineOut fs = joinSep ',' fs := by
  unfold lineOut
  congr 1
  have h1 : fs.map fieldOut = fs.map id := List.map_congr_left (fun f hf => fieldOut_id (h f hf))
  rw [h1, List.map_id]

theorem mem_lineOut {fs : List (List Char)} {c : Char}
    (h : ∀ f ∈ fs, ∀ ch ∈ f, ¬ pathCh ch) (hc : c ∈ lineOut fs) :
    c = ',' ∨ ∃ f ∈ fs, c ∈ f := by
  rw [lineOut_id h] at hc
  exact mem_joinSep hc

/-- Any character of a line built from pathological-free fields is the
delimiter or a pathological-free field character: in particular no quote,
carriage return or newline. -/
theorem lineOut_no_qnr {fs : List (List Char)} {c : Char}
    (h : ∀ f ∈ fs, ∀ ch ∈ f, ¬ pathCh ch) (hc : c ∈ lineOut fs) :
    c ≠ '"' ∧ c ≠ '\r' ∧ c ≠ '\n' := by
  rcases mem_lineOut h hc with rfl | ⟨f, hf, hcf⟩
  · refine ⟨by decide, by decide, by decide⟩
  · have hnp := h f hf c hcf
    unfold pathCh at hnp
    push_neg at hnp
    exact ⟨hnp.2.1, hnp.2.2.2, hnp.2.2.1⟩

/-! ### The round-trip law -/

/-- General round-trip lemma: on a table whose header names and cells carry
no pathological characters, and none of whose records is the all-null
single-cell record (whose serialized line is blank and is dropped by
skip-empty-lines), parsing the serialized text recovers the table. -/
theorem parse_serialize_eq (H : List String) (R : List (List Cell))
    (hH : H ≠ []) (hname : ∀ h ∈ H, wfName h.data)
    (hlen : ∀ r ∈ R, r.length = H.length)
    (hcells : ∀ r ∈ R, ∀ c ∈ r, wfCell c)
    (hnb : ∀ r ∈ R, r ≠ [Cell.null]) :
    parseCSV (serializeCSV H R) = some (H, R) := by
  have hHf : ∀ f ∈ H.map (fun h => h.data), ∀ ch ∈ f, ¬ pathCh ch := by
    intro f hf ch hch
    obtain ⟨h, hh, rfl⟩ := List.mem_map.mp hf
    exact (hname h hh).2.2 ch hch
  have hRf : ∀ r ∈ R, ∀ f ∈ r.map cellChars, ∀ ch ∈ f, ¬ pathCh ch := by
    intro r hr f hf ch hch
    obtain ⟨c, hcm, rfl⟩ := List.mem_map.mp hf
    exact cellChars_no_path (hcells r hr c hcm) ch hch
  have hdata : (serializeCSV H R).data =
      joinSep '\n' (lineOut (H.map (fun h => h.data)) ::
        R.map (fun r => lineOut (r.map cellChars))) := rfl
  have hline : ∀ x ∈ lineOut (H.map (fun h => h.data)) ::
      R.map (fun r => lineOut (r.map cellChars)),
      ∀ ch ∈ x, ch ≠ '"' ∧ ch ≠ '\r' ∧ ch ≠ '\n' := by
    intro x hx ch hch
    rcases List.mem_cons.mp hx with rfl | hx2
    · exact lineOut_no_qnr hHf hch
    · obtain ⟨r, hr, rfl⟩ := List.mem_map.mp hx2
      exact lineOut_no_qnr (hRf r hr) hch
  have hnoq : ∀ ch ∈ (serializeCSV H R).data, ch ≠ '"' := by
    rw [hdata]
    intro ch hch
    rcases mem_joinSep hch with rfl | ⟨x, hx, hchx⟩
    · decide
    · exact (hline x hx ch hchx).1
  have hnocr : ∀ ch ∈ (serializeCSV H R).data, ch ≠ '\r' := by
    rw [hdata]
    intro ch hch
    rcases mem_joinSep hch with rfl | ⟨x, hx, hchx⟩
    · decide
    · exact (hline x hx ch hchx).2.1
  have hsplitlines : splitOnChar '\n' (joinSep '\n'
      (lineOut (H.map (fun h => h.data)) :: R.map (fun r => lineOut (r.map cellChars)))) =
      lineOut (H.map (fun h => h.data)) :: R.map (fun r => lineOut (r.map cellChars)) :=
    splitOnChar_joinSep (List.cons_ne_nil _ _)
      (fun x hx hm => (hline x hx '\n' hm).2.2 rfl)
  have hsplitH : splitOnChar ',' (lineOut (H.map (fun h => h.data))) =
      H.map (fun h => h.data) := by
    rw [lineOut_id hHf]
    apply splitOnChar_joinSep
    · simp [hH]
    · intro x hx hm
      obtain ⟨h, hh, rfl⟩ := List.mem_map.mp hx
      exact (hname h hh).2.2 ',' hm (Or.inl rfl)
  have hsplitR : ∀ r ∈ R, splitOnChar ',' (lineOut (r.map cellChars)) = r.map cellChars := by
    intro r hr
    rw [lineOut_id (hRf r hr)]
    apply splitOnChar_joinSep
    · have hrne : r ≠ [] := by
        intro he
        have := hlen r hr
        rw [he] at this
        simp at this
        exact hH (List.eq_nil_of_length_eq_zero this.symm)
      simp [hrne]
    · intro x hx hm
      obtain ⟨c, hcm, rfl⟩ := List.mem_map.mp hx
      exact cellChars_no_path (hcells r hr c hcm) ',' hm (Or.inl rfl)
  have hrows : tokenize (serializeCSV H R).data =
      (H.map (fun h => h.data)) :: R.map (fun r => r.map cellChars) := by
    rw [tokenize_split _ hnoq hnocr, hdata, hsplitlines]
    simp only [List.map_cons, hsplitH, List.map_map]
    congr 1
    apply List.map_congr_left
    intro r hr
    exact hsplitR r hr
  have hne1 : (H.map (fun h => h.data)) ≠ [[]] := by
    intro heq
    cases H with
    | nil => exact hH rfl
    | cons h t =>
      cases t with
      | nil =>
        simp only [List.map_cons, List.map_nil, List.cons.injEq, and_true] at heq
        exact (hname h (List.mem_cons_self _ _)).1 heq
      | cons h2 t2 =>
        have := congrArg List.length heq
        simp at this
  have hne2 : ∀ x ∈ R.map (fun r => r.map cellChars), x ≠ [[]] := by
    intro x hx heq
    obtain ⟨r, hr, rfl⟩ := List.mem_map.mp hx
    cases r with
    | nil => simp at heq
    | cons c t =>
      cases t with
      | nil =>
        simp only [List.map_cons, List.map_nil, List.cons.injEq, and_true] at heq
        by_cases hcn : c = Cell.null
        · exact hnb _ hr (by rw [hcn])
        · exact cellChars_ne_nil (hcells _ hr c (List.mem_cons_self _ _)) hcn heq
      | cons c2 t2 =>
        have := congrArg List.length heq
        simp at this
  have hfilter : (((H.map (fun h => h.data)) :: R.map (fun r => r.map cellChars)).filter
      (fun r => r ≠ [[]])) = (H.map (fun h => h.data)) :: R.map (fun r => r.map cellChars) := by
    apply List.filter_eq_self.mpr
    intro a ha
    rcases List.mem_cons.mp ha with rfl | ha2
    · exact decide_eq_true hne1
    · exact decide_eq_true (hne2 a ha2)
  have hhdr : (H.map (fun h => h.data)).map (fun f => String.mk (trimChars f)) = H := by
    rw [List.map_map]
    have h1 : ∀ h ∈ H, ((fun f => String.mk (trimChars f)) ∘ fun h => h.data) h = id h := by
      intro h hh
      show String.mk (trimChars h.data) = h
      rw [(hname h hh).2.1]
    rw [List.map_congr_left h1, List.map_id]
  unfold parseCSV
  rw [hrows, hfilter]
  simp only [parseRows]
  rw [hhdr]
  rw [List.map_map]
  have h2 : ∀ r ∈ R, ((fun r => alignRow H.length (inferRow r)) ∘
      (fun r => r.map cellChars)) r = id r := by
    intro r hr
    show alignRow H.length (inferRow (r.map cellChars)) = r
    have h3 : inferRow (r.map cellChars) = r := by
      unfold inferRow
      rw [List.map_map]
      have h4 : ∀ c ∈ r, (inferCell ∘ cellChars) c = id c := by
        intro c hc
        exact inferCell_cellChars (hcells r hr c hc)
      rw [List.map_congr_left h4, List.map_id]
    rw [h3]
    unfold alignRow
    rw [List.take_of_length_le (le_of_eq (hlen r hr))]
    simp [hlen r hr]
  rw [List.map_congr_left h2, List.map_id]

/-! ### Claim C1 (round-trip law) -/

/-- C1, counterexample: the single-column table with one all-null record
contains no pathological characters at all (its only cell is null, and the
header name "A" is clean), yet the round trip loses the record — the
record's serialized line is empty and skip-empty-lines drops it.  Hence
the claim as stated is false. -/
theorem claim_C1_counterexample :
    wfName "A".data ∧ wfCell Cell.null ∧
    parseCSV (serializeCSV ["A"] [[Cell.null]]) = some (["A"], []) ∧
    parseCSV (serializeCSV ["A"] [[Cell.null]]) ≠ some (["A"], [[Cell.null]]) := by
  decide

/-- C1, amended: for every header and record sequence with no pathological
characters (header names non-empty, trimmed, and delimiter/quote/newline
free; cells well-formed for re-inference, records aligned with the
header), and — the change the counterexample forces — no record equal to
the all-null single-cell record `[null]`, parsing the serialized text
yields the same header and records. -/
theorem claim_C1_roundtrip_amended (H : List String) (R : List (List Cell))
    (hH : H ≠ []) (hname : ∀ h ∈ H, wfName h.data)
    (hlen : ∀ r ∈ R, r.length = H.length)
    (hcells : ∀ r ∈ R, ∀ c ∈ r, wfCell c)
    (hnb : ∀ r ∈ R, r ≠ [Cell.null]) :
    parseCSV (serializeCSV H R) = some (H, R) :=
  parse_serialize_eq H R hH hname hlen hcells hnb

/-- C1, witness: the amended round trip at the spec's own example table. -/
theorem claim_C1_roundtrip_amended_witness :
    parseCSV (serializeCSV ["Name", "Qty"]
        [[Cell.str "Widget", Cell.int 5], [Cell.str "Gizmo", Cell.null]]) =
      some (["Name", "Qty"],
        [[Cell.str "Widget", Cell.int 5], [Cell.str "Gizmo", Cell.null]]) :=
  claim_C1_roundtrip_amended ["Name", "Qty"]
    [[Cell.str "Widget", Cell.int 5], [Cell.str "Gizmo", Cell.null]]
    (by decide) (by decide) (by decide) (by decide) (by decide)

/-! ### Claim C8 (per-cell type inference) -/

/-- C8: type inference tries the integer parse, then the floating-point
parse, then the boolean parse, and otherwise keeps the field as a string;
an empty field becomes null and never the empty string; and a parsed row
is the independent per-cell image of inference (cell (i) of the row
depends only on field (i), not on any other row or column). -/
theorem claim_C8_inference :
    inferCell [] = Cell.null ∧
    (∀ l, inferCell l ≠ Cell.str "") ∧
    (∀ l n, intParse l = some n → inferCell l = Cell.int n) ∧
    (∀ l m e, intParse l = none → floatParse l = some (m, e) →
      inferCell l = Cell.float m e) ∧
    (∀ l b, intParse l = none → floatParse l = none → boolParse l = some b →
      inferCell l = Cell.bool b) ∧
    (∀ l, l ≠ [] → intParse l = none → floatParse l = none → boolParse l = none →
      inferCell l = Cell.str (String.mk l)) ∧
    (∀ (fields : List (List Char)) (i : Nat),
      (inferRow fields)[i]? = (fields[i]?).map inferCell) := by
  refine ⟨rfl, ?_, ?_, ?_, ?_, ?_, ?_⟩
  · intro l h
    by_cases hl : l = []
    · rw [hl] at h
      exact absurd h (by decide)
    · unfold inferCell at h
      rw [if_neg hl] at h
      cases hi : intParse l with
      | some n => rw [hi] at h; exact Cell.noConfusion h
      | none =>
        rw [hi] at h
        cases hf : floatParse l with
        | some p => rw [hf] at h; exact Cell.noConfusion h
        | none =>
          rw [hf] at h
          cases hb : boolParse l with
          | some b => rw [hb] at h; exact Cell.noConfusion h
          | none =>
            rw [hb] at h
            have h2 : String.mk l = "" := Cell.str.inj h
            have h3 : l = [] := congrArg String.data h2
            exact hl h3
  · intro l n hi
    have hl : l ≠ [] := by
      intro he
      rw [he] at hi
      simp [intParse] at hi
    unfold inferCell
    rw [if_neg hl, hi]
  · intro l m e hi hf
    have hl : l ≠ [] := by
      intro he
      rw [he] at hf
      simp [floatParse] at hf
    unfold inferCell
    rw [if_neg hl, hi, hf]
  · intro l b hi hf hb
    have hl : l ≠ [] := by
      intro he
      rw [he] at hb
      simp [boolParse, lowerL] at hb
    unfold inferCell
    rw [if_neg hl, hi, hf, hb]
  · intro l hl hi hf hb
    unfold inferCell
    rw [if_neg hl, hi, hf, hb]
  · intro fields i
    unfold inferRow
    exact List.getElem?_map inferCell fields i

/-- C8, witness: inference at concrete fields, with the hypotheses of the
ordering conjuncts discharged by evaluation. -/
theorem claim_C8_inference_witness :
    inferCell ['4', '2'] = Cell.int 42 ∧ inferCell ['4', '.', '5'] = Cell.float 45 1 := by
  constructor
  · exact claim_C8_inference.2.2.1 ['4', '2'] 42 (by decide)
  · exact claim_C8_inference.2.2.2.1 ['4', '.', '5'] 45 1 (by decide) (by decide)

/-! ### Substring search (the View Engine's filter, claim C2) -/

/-- Initial-segment test: `leadsIn p l` holds when `p` starts `l`. -/
def leadsIn : List Char → List Char → Bool
  | [], _ => true
  | _ :: _, [] => false
  | a :: as, b :: bs => a = b && leadsIn as bs

/-- Contiguous-occurrence test: `occursIn p l` holds when `p` appears as a
contiguous run inside `l`. -/
def occursIn (p : List Char) : List Char → Bool
  | [] => leadsIn p []
  | c :: rest => leadsIn p (c :: rest) || occursIn p rest

theorem leadsIn_iff : ∀ (p l : List Char), leadsIn p l = true ↔ ∃ t, l = p ++ t := by
  intro p
  induction p with
  | nil =>
    intro l
    simp [leadsIn]
  | cons a as ih =>
    intro l
    cases l with
    | nil =>
      simp [leadsIn]
    | cons b bs =>
      simp only [leadsIn, Bool.and_eq_true, decide_eq_true_eq, ih bs]
      constructor
      · rintro ⟨rfl, t, rfl⟩
        exact ⟨t, rfl⟩
      · rintro ⟨t, ht⟩
        rw [List.cons_append] at ht
        have h1 := List.cons.inj ht
        exact ⟨h1.1.symm, t, h1.2⟩

theorem occursIn_iff : ∀ (l p : List Char), occursIn p l = true ↔ ∃ a b, l = a ++ p ++ b := by
  intro l
  induction l with
  | nil =>
    intro p
    simp only [occursIn, leadsIn_iff]
    constructor
    · rintro ⟨t, ht⟩
      exact ⟨[], t, ht⟩
    · rintro ⟨a, b, hab⟩
      have h1 := List.append_eq_nil.mp hab.symm
      have h2 := List.append_eq_nil.mp h1.1
      refine ⟨[], ?_⟩
      rw [h2.2]
      rfl
  | cons c rest ih =>
    intro p
    simp only [occursIn, Bool.or_eq_true, leadsIn_iff, ih p]
    constructor
    · rintro (⟨t, ht⟩ | ⟨a, b, hab⟩)
      · exact ⟨[], t, by simpa using ht⟩
      · exact ⟨c :: a, b, by rw [hab]; simp⟩
    · rintro ⟨a, b, hab⟩
      cases a with
      | nil =>
        left
        exact ⟨b, by simpa using hab⟩
      | cons a0 as =>
        right
        rw [List.cons_append, List.cons_append] at hab
        have h1 := List.cons.inj hab
        exact ⟨as, b, h1.2⟩

/-- Modelled from the spec: a row matches the search query when the query
is empty or occurs case-insensitively in the string form of at least one
of the row's cells — every column is scanned, independent of visibility
(the DataTables global search the repository wires to the search input at
script.js `searchInput` / `dataTable.search(...)`). -/
def rowMatches (q : String) (r : List Cell) : Bool :=
  q.data.isEmpty || r.any (fun c => occursIn (lowerL q.data) (lowerL (cellChars c)))

/-- Modelled from the spec: the View Engine's filter step — keep exactly
the matching rows, in their original order. -/
def filterRows (q : String) (rows : List (List Cell)) : List (List Cell) :=
  rows.filter (rowMatches q)

/-! ### Claim C2 (filter correctness) -/

/-- C2: a row appears in the filtered result if and only if it is a table
row and the query is empty or occurs as a case-insensitive contiguous
substring of the string form of at least one of its cells (cells of every
column participate — visibility is not consulted anywhere in
`rowMatches`); and the empty query keeps every row. -/
theorem claim_C2_filter (q : String) (rows : List (List Cell)) :
    (∀ r, r ∈ filterRows q rows ↔ r ∈ rows ∧
      (q.data = [] ∨ ∃ c ∈ r, ∃ pre post,
        lowerL (cellChars c) = pre ++ lowerL q.data ++ post)) ∧
    filterRows "" rows = rows := by
  constructor
  · intro r
    unfold filterRows
    rw [List.mem_filter]
    constructor
    · rintro ⟨hmem, hmatch⟩
      refine ⟨hmem, ?_⟩
      unfold rowMatches at hmatch
      rw [Bool.or_eq_true] at hmatch
      rcases hmatch with he | ha
      · exact Or.inl (List.isEmpty_iff.mp he)
      · obtain ⟨c, hc, hocc⟩ := List.any_eq_true.mp ha
        exact Or.inr ⟨c, hc, (occursIn_iff _ _).mp hocc⟩
    · rintro ⟨hmem, hq | ⟨c, hc, hocc⟩⟩
      · refine ⟨hmem, ?_⟩
        unfold rowMatches
        rw [Bool.or_eq_true]
        exact Or.inl (List.isEmpty_iff.mpr hq)
      · refine ⟨hmem, ?_⟩
        unfold rowMatches
        rw [Bool.or_eq_true]
        right
        exact List.any_eq_true.mpr ⟨c, hc, (occursIn_iff _ _).mpr hocc⟩
  · unfold filterRows
    apply List.filter_eq_self.mpr
    intro r _
    rfl

/-! ### Comparators -/

/-- Reverse an ordering (flipping a comparator, not reversing output). -/
def flipO : Ordering → Ordering
  | .lt => .gt
  | .eq => .eq
  | .gt => .lt

/-- Three-way comparison induced by a linear order. -/
def linCmp {α : Type _} [LinearOrder α] (x y : α) : Ordering :=
  if x < y then .lt else if y < x then .gt else .eq

/-- Lexicographic composition of two comparators on a pair. -/
def pairCmp {α β : Type _} (c1 : α → α → Ordering) (c2 : β → β → Ordering)
    (x y : α × β) : Ordering :=
  match c1 x.1 y.1 with
  | .eq => c2 x.2 y.2
  | o => o

/-- The comparator laws the stable sort proofs rely on: agreement with the
flipped comparator on swapped arguments, and transitivity of the strict
and equality relations. -/
structure CmpWF {α : Type _} (cmp : α → α → Ordering) : Prop where
  flip_eq : ∀ x y, cmp y x = flipO (cmp x y)
  eq_trans : ∀ x y z, cmp x y = .eq → cmp y z = .eq → cmp x z = .eq
  lt_trans : ∀ x y z, cmp x y = .lt → cmp y z = .lt → cmp x z = .lt
  lt_of_lt_of_eq : ∀ x y z, cmp x y = .lt → cmp y z = .eq → cmp x z = .lt
  lt_of_eq_of_lt : ∀ x y z, cmp x y = .eq → cmp y z = .lt → cmp x z = .lt

theorem CmpWF.gt_asym {α : Type _} {cmp : α → α → Ordering} (h : CmpWF cmp)
    {x y : α} (hxy : cmp x y = .gt) : cmp y x = .lt := by
  rw [h.flip_eq, hxy]
  rfl

theorem CmpWF.eq_symm {α : Type _} {cmp : α → α → Ordering} (h : CmpWF cmp)
    {x y : α} (hxy : cmp x y = .eq) : cmp y x = .eq := by
  rw [h.flip_eq, hxy]
  rfl

theorem CmpWF.le_trans {α : Type _} {cmp : α → α → Ordering} (h : CmpWF cmp)
    {x y z : α} (hxy : cmp x y ≠ .gt) (hyz : cmp y z ≠ .gt) : cmp x z ≠ .gt := by
  cases h1 : cmp x y with
  | gt => exact absurd h1 hxy
  | lt =>
    cases h2 : cmp y z with
    | gt => exact absurd h2 hyz
    | lt => rw [h.lt_trans x y z h1 h2]; intro hc; exact Ordering.noConfusion hc
    | eq => rw [h.lt_of_lt_of_eq x y z h1 h2]; intro hc; exact Ordering.noConfusion hc
  | eq =>
    cases h2 : cmp y z with
    | gt => exact absurd h2 hyz
    | lt => rw [h.lt_of_eq_of_lt x y z h1 h2]; intro hc; exact Ordering.noConfusion hc
    | eq => rw [h.eq_trans x y z h1 h2]; intro hc; exact Ordering.noConfusion hc

theorem CmpWF.gt_trans {α : Type _} {cmp : α → α → Ordering} (h : CmpWF cmp)
    {x y z : α} (hxy : cmp x y = .gt) (hyz : cmp y z = .gt) : cmp x z = .gt := by
  have h1 := h.gt_asym hxy
  have h2 := h.gt_asym hyz
  have h3 := h.lt_trans z y x h2 h1
  rw [h.flip_eq, h3]
  rfl

theorem CmpWF.flip {α : Type _} {cmp : α → α → Ordering} (h : CmpWF cmp) :
    CmpWF (fun x y => flipO (cmp x y)) := by
  have hlt : ∀ o, flipO o = .lt ↔ o = .gt := by intro o; cases o <;> simp [flipO]
  have heq : ∀ o, flipO o = .eq ↔ o = .eq := by intro o; cases o <;> simp [flipO]
  refine ⟨?_, ?_, ?_, ?_, ?_⟩
  · intro x y
    rw [h.flip_eq x y]
  · intro x y z h1 h2
    rw [heq] at h1 h2 ⊢
    exact h.eq_trans x y z h1 h2
  · intro x y z h1 h2
    rw [hlt] at h1 h2 ⊢
    exact h.gt_trans h1 h2
  · intro x y z h1 h2
    rw [hlt] at h1 ⊢
    rw [heq] at h2
    have h3 := h.lt_of_eq_of_lt z y x (h.eq_symm h2) (h.gt_asym h1)
    have h4 := h.flip_eq x z
    rw [h3] at h4
    cases h5 : cmp x z <;> rw [h5] at h4 <;> first | rfl | exact Ordering.noConfusion h4
  · intro x y z h1 h2
    rw [hlt] at h2 ⊢
    rw [heq] at h1
    have h3 := h.lt_of_lt_of_eq z y x (h.gt_asym h2) (h.eq_symm h1)
    have h4 := h.flip_eq x z
    rw [h3] at h4
    cases h5 : cmp x z <;> rw [h5] at h4 <;> first | rfl | exact Ordering.noConfusion h4

theorem CmpWF.comap {α β : Type _} {cmp : α → α → Ordering} (f : β → α)
    (h : CmpWF cmp) : CmpWF (fun x y => cmp (f x) (f y)) := by
  refine ⟨?_, ?_, ?_, ?_, ?_⟩
  · intro x y; exact h.flip_eq (f x) (f y)
  · intro x y z; exact h.eq_trans (f x) (f y) (f z)
  · intro x y z; exact h.lt_trans (f x) (f y) (f z)
  · intro x y z; exact h.lt_of_lt_of_eq (f x) (f y) (f z)
  · intro x y z; exact h.lt_of_eq_of_lt (f x) (f y) (f z)

theorem linCmp_lt_iff {α : Type _} [LinearOrder α] (x y : α) :
    linCmp x y = .lt ↔ x < y := by
  unfold linCmp
  rcases lt_trichotomy x y with h | h | h
  · simp [h]
  · simp [h, lt_irrefl]
  · rw [if_neg (asymm h), if_pos h]
    simp
    exact le_of_lt h

theorem linCmp_eq_iff {α : Type _} [LinearOrder α] (x y : α) :
    linCmp x y = .eq ↔ x = y := by
  unfold linCmp
  rcases lt_trichotomy x y with h | h | h
  · simp [h, ne_of_lt h]
  · simp [h, lt_irrefl]
  · rw [if_neg (asymm h), if_pos h]
    simp
    exact (ne_of_lt h).symm

theorem linCmp_gt_iff {α : Type _} [LinearOrder α] (x y : α) :
    linCmp x y = .gt ↔ y < x := by
  unfold linCmp
  rcases lt_trichotomy x y with h | h | h
  · simp [h, asymm h]
  · simp [h, lt_irrefl]
  · rw [if_neg (asymm h), if_pos h]
    simp [h]

theorem linCmp_wf {α : Type _} [LinearOrder α] : CmpWF (linCmp (α := α)) := by
  refine ⟨?_, ?_, ?_, ?_, ?_⟩
  · intro x y
    rcases lt_trichotomy x y with h | h | h
    · rw [(linCmp_lt_iff x y).mpr h, (linCmp_gt_iff y x).mpr h]
      rfl
    · rw [(linCmp_eq_iff x y).mpr h, (linCmp_eq_iff y x).mpr h.symm]
      rfl
    · rw [(linCmp_gt_iff x y).mpr h, (linCmp_lt_iff y x).mpr h]
      rfl
  · intro x y z h1 h2
    rw [linCmp_eq_iff] at h1 h2 ⊢
    exact h1.trans h2
  · intro x y z h1 h2
    rw [linCmp_lt_iff] at h1 h2 ⊢
    exact lt_trans h1 h2
  · intro x y z h1 h2
    rw [linCmp_lt_iff] at h1 ⊢
    rw [linCmp_eq_iff] at h2
    exact h2 ▸ h1
  · intro x y z h1 h2
    rw [linCmp_eq_iff] at h1
    rw [linCmp_lt_iff] at h2 ⊢
    exact h1 ▸ h2

theorem pairCmp_wf {α β : Type _} {c1 : α → α → Ordering} {c2 : β → β → Ordering}
    (h1 : CmpWF c1) (h2 : CmpWF c2) : CmpWF (pairCmp c1 c2) := by
  have hred : ∀ (x y : α × β), pairCmp c1 c2 x y =
      match c1 x.1 y.1 with
      | .eq => c2 x.2 y.2
      | o => o := fun x y => rfl
  refine ⟨?_, ?_, ?_, ?_, ?_⟩
  · intro x y
    rw [hred, hred, h1.flip_eq x.1 y.1]
    cases hc : c1 x.1 y.1 with
    | eq => exact h2.flip_eq x.2 y.2
    | lt => rfl
    | gt => rfl
  · intro x y z hxy hyz
    rw [hred] at hxy hyz ⊢
    cases hc1 : c1 x.1 y.1 <;> rw [hc1] at hxy
    case lt => exact absurd hxy (by simp)
    case gt => exact absurd hxy (by simp)
    case eq =>
      cases hc2 : c1 y.1 z.1 <;> rw [hc2] at hyz
      case lt => exact absurd hyz (by simp)
      case gt => exact absurd hyz (by simp)
      case eq =>
        rw [h1.eq_trans x.1 y.1 z.1 hc1 hc2]
        exact h2.eq_trans x.2 y.2 z.2 hxy hyz
  · intro x y z hxy hyz
    rw [hred] at hxy hyz ⊢
    cases hc1 : c1 x.1 y.1 <;> rw [hc1] at hxy
    case gt => exact absurd hxy (by simp)
    case lt =>
      cases hc2 : c1 y.1 z.1 <;> rw [hc2] at hyz
      case gt => exact absurd hyz (by simp)
      case lt => rw [h1.lt_trans x.1 y.1 z.1 hc1 hc2]
      case eq => rw [h1.lt_of_lt_of_eq x.1 y.1 z.1 hc1 hc2]
    case eq =>
      cases hc2 : c1 y.1 z.1 <;> rw [hc2] at hyz
      case gt => exact absurd hyz (by simp)
      case lt => rw [h1.lt_of_eq_of_lt x.1 y.1 z.1 hc1 hc2]
      case eq =>
        rw [h1.eq_trans x.1 y.1 z.1 hc1 hc2]
        exact h2.lt_trans x.2 y.2 z.2 hxy hyz
  · intro x y z hxy hyz
    rw [hred] at hxy hyz ⊢
    cases hc1 : c1 x.1 y.1 <;> rw [hc1] at hxy
    case gt => exact absurd hxy (by simp)
    case lt =>
      cases hc2 : c1 y.1 z.1 <;> rw [hc2] at hyz
      case lt => exact absurd hyz (by simp)
      case gt => exact absurd hyz (by simp)
      case eq => rw [h1.lt_of_lt_of_eq x.1 y.1 z.1 hc1 hc2]
    case eq =>
      cases hc2 : c1 y.1 z.1 <;> rw [hc2] at hyz
      case lt => exact absurd hyz (by simp)
      case gt => exact absurd hyz (by simp)
      case eq =>
        rw [h1.eq_trans x.1 y.1 z.1 hc1 hc2]
        exact h2.lt_of_lt_of_eq x.2 y.2 z.2 hxy hyz
  · intro x y z hxy hyz
    rw [hred] at hxy hyz ⊢
    cases hc1 : c1 x.1 y.1 <;> rw [hc1] at hxy
    case gt => exact absurd hxy (by simp)
    case lt => exact absurd hxy (by simp)
    case eq =>
      cases hc2 : c1 y.1 z.1 <;> rw [hc2] at hyz
      case gt => exact absurd hyz (by simp)
      case lt => rw [h1.lt_of_eq_of_lt x.1 y.1 z.1 hc1 hc2]
      case eq =>
        rw [h1.eq_trans x.1 y.1 z.1 hc1 hc2]
        exact h2.lt_of_eq_of_lt x.2 y.2 z.2 hxy hyz

/-! ### Stable insertion sort -/

/-- Insert `a` after every element strictly smaller under `cmp` and before
the first element not smaller — equal elements stay before `a`, which
makes the sort stable. -/
def insOrd {α : Type _} (cmp : α → α → Ordering) (a : α) : List α → List α
  | [] => [a]
  | b :: bs => if cmp a b = .gt then b :: insOrd cmp a bs else a :: b :: bs

/-- Modelled from the spec: stable comparison sort (insertion sort — the
spec fixes the contract, not the algorithm). -/
def sortOrd {α : Type _} (cmp : α → α → Ordering) (l : List α) : List α :=
  l.foldr (insOrd cmp) []

theorem insOrd_perm {α : Type _} (cmp : α → α → Ordering) (a : α) :
    ∀ l : List α, (insOrd cmp a l).Perm (a :: l) := by
  intro l
  induction l with
  | nil => rfl
  | cons b bs ih =>
    unfold insOrd
    by_cases h : cmp a b = .gt
    · rw [if_pos h]
      exact (ih.cons b).trans (List.Perm.swap a b bs)
    · rw [if_neg h]

theorem sortOrd_perm {α : Type _} (cmp : α → α → Ordering) :
    ∀ l : List α, (sortOrd cmp l).Perm l := by
  intro l
  induction l with
  | nil => rfl
  | cons x xs ih =>
    have h1 : sortOrd cmp (x :: xs) = insOrd cmp x (sortOrd cmp xs) := rfl
    rw [h1]
    exact (insOrd_perm cmp x (sortOrd cmp xs)).trans (ih.cons x)

theorem mem_insOrd {α : Type _} {cmp : α → α → Ordering} {a x : α} {l : List α}
    (h : x ∈ insOrd cmp a l) : x = a ∨ x ∈ l :=
  List.mem_cons.mp ((insOrd_perm cmp a l).mem_iff.mp h)

theorem insOrd_sorted {α : Type _} {cmp : α → α → Ordering} (hw : CmpWF cmp) (a : α) :
    ∀ l : List α, l.Pairwise (fun x y => cmp x y ≠ .gt) →
      (insOrd cmp a l).Pairwise (fun x y => cmp x y ≠ .gt) := by
  intro l
  induction l with
  | nil =>
    intro _
    exact List.pairwise_singleton _ a
  | cons b bs ih =>
    intro hp
    rw [List.pairwise_cons] at hp
    unfold insOrd
    by_cases h : cmp a b = .gt
    · rw [if_pos h]
      rw [List.pairwise_cons]
      constructor
      · intro x hx
        rcases mem_insOrd hx with rfl | hxl
        · rw [hw.gt_asym h]
          intro hc
          exact Ordering.noConfusion hc
        · exact hp.1 x hxl
      · exact ih hp.2
    · rw [if_neg h]
      rw [List.pairwise_cons]
      constructor
      · intro x hx
        rcases List.mem_cons.mp hx with rfl | hxl
        · exact h
        · exact hw.le_trans h (hp.1 x hxl)
      · exact List.pairwise_cons.mpr hp

theorem sortOrd_sorted {α : Type _} {cmp : α → α → Ordering} (hw : CmpWF cmp) :
    ∀ l : List α, (sortOrd cmp l).Pairwise (fun x y => cmp x y ≠ .gt) := by
  intro l
  induction l with
  | nil => exact List.Pairwise.nil
  | cons x xs ih => exact insOrd_sorted hw x (sortOrd cmp xs) ih

theorem ordBeq_eq {o : Ordering} (h : (o == Ordering.eq) = true) : o = Ordering.eq := by
  cases o <;> first | rfl | exact Bool.noConfusion h

theorem insOrd_filter_stable {α : Type _} {cmp : α → α → Ordering} {p : α → Bool}
    (hp : ∀ x y, p x = true → p y = true → cmp x y ≠ .gt) (a : α) :
    ∀ l : List α, (insOrd cmp a l).filter p = (a :: l).filter p := by
  intro l
  induction l with
  | nil => rfl
  | cons b bs ih =>
    unfold insOrd
    by_cases h : cmp a b = .gt
    · rw [if_pos h]
      by_cases hb : p b = true
      · by_cases ha : p a = true
        · exact absurd h (hp a b ha hb)
        · simp only [List.filter_cons, hb, ha, if_true, if_false, ih]
          simp [List.filter_cons, hb, ha]
      · simp only [List.filter_cons, hb, if_false, ih]
        simp [List.filter_cons, hb]
    · rw [if_neg h]

theorem sortOrd_filter_stable {α : Type _} {cmp : α → α → Ordering} {p : α → Bool}
    (hp : ∀ x y, p x = true → p y = true → cmp x y ≠ .gt) :
    ∀ l : List α, (sortOrd cmp l).filter p = l.filter p := by
  intro l
  induction l with
  | nil => rfl
  | cons x xs ih =>
    have h1 : sortOrd cmp (x :: xs) = insOrd cmp x (sortOrd cmp xs) := rfl
    rw [h1, insOrd_filter_stable hp x (sortOrd cmp xs)]
    simp only [List.filter_cons, ih]

/-! ### The cell comparator (spec §4.3 step 2) -/

/-- Type rank of a cell: nulls sort before everything, then booleans, then
numbers (integers and floats compare together, numerically), then
strings. -/
def rank : Cell → Nat
  | .null => 0
  | .bool _ => 1
  | .int _ => 2
  | .float _ _ => 2
  | .str _ => 3

/-- Numeric value of a cell (exact rational; booleans as 0/1, others 0). -/
def numv : Cell → Rat
  | .bool b => if b then 1 else 0
  | .int n => (n : Rat)
  | .float m e => (m : Rat) / 10 ^ e
  | _ => 0

/-- String value of a cell (only string cells carry one). -/
def strv : Cell → List Char
  | .str s => s.data
  | _ => []

/-- Sort key of a cell: rank, then numeric value, then string value. -/
def cellKey (c : Cell) : Nat × (Rat × List Char) := (rank c, numv c, strv c)

/-- Modelled from the spec: the cell comparator of §4.3 — nulls before all
non-null values, numeric cells numerically, strings lexicographically
case-sensitively. -/
def cellCmp (a b : Cell) : Ordering :=
  pairCmp linCmp (pairCmp linCmp linCmp) (cellKey a) (cellKey b)

theorem cellCmp_wf : CmpWF cellCmp :=
  CmpWF.comap cellKey (pairCmp_wf linCmp_wf (pairCmp_wf linCmp_wf linCmp_wf))

theorem numCmp_reduce (ra rb : Nat) (A B : Rat) (s t : List Char)
    (hr : ra = rb) (hs : s = t) :
    pairCmp linCmp (pairCmp linCmp linCmp) (ra, A, s) (rb, B, t) = linCmp A B := by
  subst hr
  subst hs
  show (match linCmp ra ra with
    | .eq =>
      (match linCmp A B with
       | .eq => linCmp s s
       | o => o)
    | o => o) = linCmp A B
  rw [(linCmp_eq_iff ra ra).mpr rfl]
  cases hAB : linCmp A B with
  | lt => rfl
  | gt => rfl
  | eq => exact (linCmp_eq_iff s s).mpr rfl

theorem strCmp_reduce (ra rb : Nat) (A B : Rat) (s t : List Char)
    (hr : ra = rb) (hA : A = B) :
    pairCmp linCmp (pairCmp linCmp linCmp) (ra, A, s) (rb, B, t) = linCmp s t := by
  subst hr
  subst hA
  show (match linCmp ra ra with
    | .eq =>
      (match linCmp A A with
       | .eq => linCmp s t
       | o => o)
    | o => o) = linCmp s t
  rw [(linCmp_eq_iff ra ra).mpr rfl, (linCmp_eq_iff A A).mpr rfl]

theorem linCmp_int_rat (a b : Int) : linCmp ((a : Rat)) ((b : Rat)) = linCmp a b := by
  rcases lt_trichotomy a b with h | h | h
  · rw [(linCmp_lt_iff a b).mpr h, (linCmp_lt_iff _ _).mpr (by exact_mod_cast h)]
  · subst h
    rw [(linCmp_eq_iff a a).mpr rfl, (linCmp_eq_iff _ _).mpr rfl]
  · rw [(linCmp_gt_iff a b).mpr h, (linCmp_gt_iff _ _).mpr (by exact_mod_cast h)]

theorem cellCmp_null_lt (x : Cell) (h : x ≠ Cell.null) : cellCmp Cell.null x = .lt := by
  have hrank : 0 < rank x := by
    cases x with
    | null => exact absurd rfl h
    | bool b => exact Nat.zero_lt_one
    | int n => exact Nat.zero_lt_two
    | float m e => exact Nat.zero_lt_two
    | str s => exact Nat.succ_pos 2
  show (match linCmp (rank Cell.null) (rank x) with
    | .eq =>
      (match linCmp (numv Cell.null) (numv x) with
       | .eq => linCmp (strv Cell.null) (strv x)
       | o => o)
    | o => o) = .lt
  rw [show rank Cell.null = 0 from rfl, (linCmp_lt_iff 0 (rank x)).mpr hrank]

theorem cellCmp_null_gt (x : Cell) (h : x ≠ Cell.null) : cellCmp x Cell.null = .gt := by
  rw [cellCmp_wf.flip_eq Cell.null x, cellCmp_null_lt x h]
  rfl

theorem cellCmp_int (a b : Int) : cellCmp (.int a) (.int b) = linCmp a b := by
  have h1 : cellCmp (.int a) (.int b) = linCmp ((a : Rat)) ((b : Rat)) :=
    numCmp_reduce 2 2 _ _ [] [] rfl rfl
  rw [h1, linCmp_int_rat]

theorem cellCmp_int_float (a m : Int) (e : Nat) :
    cellCmp (.int a) (.float m e) = linCmp ((a : Rat)) ((m : Rat) / 10 ^ e) :=
  numCmp_reduce 2 2 _ _ [] [] rfl rfl

theorem cellCmp_float (m1 : Int) (e1 : Nat) (m2 : Int) (e2 : Nat) :
    cellCmp (.float m1 e1) (.float m2 e2) =
      linCmp ((m1 : Rat) / 10 ^ e1) ((m2 : Rat) / 10 ^ e2) :=
  numCmp_reduce 2 2 _ _ [] [] rfl rfl

theorem cellCmp_str (s t : String) : cellCmp (.str s) (.str t) = linCmp s.data t.data :=
  strCmp_reduce 3 3 0 0 s.data t.data rfl rfl

/-! ### The View Engine's sort step -/

/-- Sort key of a row: the designated column's cell (a missing cell counts
as null). -/
def keyOf (ci : Nat) (r : List Cell) : Cell := r.getD ci Cell.null

/-- Direction: ascending keeps the comparator, descending flips it (the
comparator, not the sorted output). -/
def dirOrd (asc : Bool) (o : Ordering) : Ordering := if asc then o else flipO o

/-- Modelled from the spec: the effective row comparator of §4.3. -/
def rowCmp (ci : Nat) (asc : Bool) (r1 r2 : List Cell) : Ordering :=
  dirOrd asc (cellCmp (keyOf ci r1) (keyOf ci r2))

/-- Modelled from the spec: the View Engine's sort step — stably order the
matching rows by the designated column under the direction's
comparator. -/
def sortRows (ci : Nat) (asc : Bool) (rows : List (List Cell)) : List (List Cell) :=
  sortOrd (rowCmp ci asc) rows

theorem rowCmp_wf (ci : Nat) (asc : Bool) : CmpWF (rowCmp ci asc) := by
  cases asc
  · exact (CmpWF.comap (fun r => keyOf ci r) cellCmp_wf).flip
  · exact CmpWF.comap (fun r => keyOf ci r) cellCmp_wf

/-! ### Claim C3 (sort semantics) -/

/-- C3: the sort orders matching rows by the designated column's cells —
nulls before all non-null values, numeric cells (integers and floats)
numerically, strings lexicographically case-sensitively; the output is a
permutation of the input, pairwise ordered under the direction's
comparator; and the sort is stable in BOTH directions — the subsequence
of rows whose key compares equal to any fixed cell is preserved exactly,
descending included, because descending flips the comparator rather than
reversing the sorted output. -/
theorem claim_C3_sort :
    (∀ x : Cell, x ≠ Cell.null → cellCmp Cell.null x = .lt ∧ cellCmp x Cell.null = .gt) ∧
    (∀ a b : Int, cellCmp (.int a) (.int b) = linCmp a b) ∧
    (∀ (a m : Int) (e : Nat),
      cellCmp (.int a) (.float m e) = linCmp ((a : Rat)) ((m : Rat) / 10 ^ e)) ∧
    (∀ (m1 : Int) (e1 : Nat) (m2 : Int) (e2 : Nat),
      cellCmp (.float m1 e1) (.float m2 e2) =
        linCmp ((m1 : Rat) / 10 ^ e1) ((m2 : Rat) / 10 ^ e2)) ∧
    (∀ s t : String, cellCmp (.str s) (.str t) = linCmp s.data t.data) ∧
    (∀ ci asc rows, (sortRows ci asc rows).Perm rows) ∧
    (∀ ci asc rows,
      (sortRows ci asc rows).Pairwise (fun r1 r2 => rowCmp ci asc r1 r2 ≠ .gt)) ∧
    (∀ ci asc rows (k : Cell),
      (sortRows ci asc rows).filter (fun r => cellCmp (keyOf ci r) k == .eq) =
        rows.filter (fun r => cellCmp (keyOf ci r) k == .eq)) ∧
    sortRows 0 false [[Cell.int 1, Cell.int 1], [Cell.int 1, Cell.int 2]] ≠
      (sortRows 0 true [[Cell.int 1, Cell.int 1], [Cell.int 1, Cell.int 2]]).reverse := by
  refine ⟨?_, cellCmp_int, cellCmp_int_float, cellCmp_float, cellCmp_str, ?_, ?_, ?_, ?_⟩
  · intro x h
    exact ⟨cellCmp_null_lt x h, cellCmp_null_gt x h⟩
  · intro ci asc rows
    exact sortOrd_perm (rowCmp ci asc) rows
  · intro ci asc rows
    exact sortOrd_sorted (rowCmp_wf ci asc) rows
  · intro ci asc rows k
    apply sortOrd_filter_stable
    intro x y hx hy
    have hxe : cellCmp (keyOf ci x) k = .eq := ordBeq_eq hx
    have hye : cellCmp (keyOf ci y) k = .eq := ordBeq_eq hy
    have hxy : cellCmp (keyOf ci x) (keyOf ci y) = .eq :=
      cellCmp_wf.eq_trans _ k _ hxe (cellCmp_wf.eq_symm hye)
    unfold rowCmp
    rw [hxy]
    cases asc <;> intro hc <;> exact Ordering.noConfusion hc
  · have hc : cellCmp (Cell.int 1) (Cell.int 1) = .eq := by
      rw [cellCmp_int]
      exact (linCmp_eq_iff 1 1).mpr rfl
    have hk : keyOf 0 [Cell.int 1, Cell.int 1] = Cell.int 1 := rfl
    have hk2 : keyOf 0 [Cell.int 1, Cell.int 2] = Cell.int 1 := rfl
    have hr : ∀ asc, rowCmp 0 asc [Cell.int 1, Cell.int 1] [Cell.int 1, Cell.int 2] ≠ .gt := by
      intro asc
      unfold rowCmp
      rw [hk, hk2, hc]
      cases asc <;> intro h2 <;> exact Ordering.noConfusion h2
    have hs : ∀ asc, sortRows 0 asc [[Cell.int 1, Cell.int 1], [Cell.int 1, Cell.int 2]] =
        [[Cell.int 1, Cell.int 1], [Cell.int 1, Cell.int 2]] := by
      intro asc
      show insOrd (rowCmp 0 asc) [Cell.int 1, Cell.int 1]
        [[Cell.int 1, Cell.int 2]] = _
      unfold insOrd
      rw [if_neg (hr asc)]
    rw [hs true, hs false]
    simp

/-- C3, witness: the null-before-everything conjunct at a concrete cell. -/
theorem claim_C3_sort_witness :
    cellCmp Cell.null (Cell.str "a") = .lt ∧ cellCmp (Cell.str "a") Cell.null = .gt :=
  claim_C3_sort.1 (Cell.str "a") (by decide)

/-! ### Pagination (spec §4.3 step 3, claim C4) -/

/-- Modelled from the spec: number of pages for `n` rows at page size `p` —
the ceiling of n / p. -/
def pageCount (p n : Nat) : Nat := (n + p - 1) / p

/-- Modelled from the spec: the View Engine's paginate step — clamp the
requested page index to the last valid page, then slice
[index * size, index * size + size). -/
def paginate {α : Type _} (p idx : Nat) (rows : List α) : List α :=
  (rows.drop (min idx (pageCount p rows.length - 1) * p)).take p

theorem pageCount_ge (p n : Nat) (hp : 0 < p) : n ≤ pageCount p n * p := by
  by_cases h0 : n = 0
  · subst h0
    exact Nat.zero_le _
  · unfold pageCount
    have h1 : n + p - 1 = (n - 1) + p := by omega
    rw [h1, Nat.add_div_right _ hp, Nat.succ_mul]
    have h2 := Nat.div_add_mod (n - 1) p
    have h3 : (n - 1) % p < p := Nat.mod_lt _ hp
    have h4 : p * ((n - 1) / p) = ((n - 1) / p) * p := Nat.mul_comm _ _
    omega

theorem pageCount_min (p n m : Nat) (hp : 0 < p) (h : n ≤ m * p) :
    pageCount p n ≤ m := by
  by_cases h0 : n = 0
  · subst h0
    unfold pageCount
    have h1 : (p - 1) / p = 0 := Nat.div_eq_of_lt (by omega)
    simp [h1]
  · unfold pageCount
    have h1 : n + p - 1 = (n - 1) + p := by omega
    rw [h1, Nat.add_div_right _ hp]
    have h2 : (n - 1) / p < m := by
      rw [Nat.div_lt_iff_lt_mul hp]
      omega
    omega

theorem pageCount_last (p n : Nat) (hp : 0 < p) (hn : 0 < n) :
    (pageCount p n - 1) * p < n := by
  unfold pageCount
  have h1 : n + p - 1 = (n - 1) + p := by omega
  rw [h1, Nat.add_div_right _ hp]
  simp only [Nat.add_sub_cancel]
  have h2 := Nat.div_mul_le_self (n - 1) p
  omega

/-! ### Claim C4 (pagination bounds) -/

/-- C4: for page size p > 0 the page count is the ceiling of n / p (it is
the least m with n ≤ m * p); a requested page index at or past the page
count produces the same page as the last valid index; and when the table
is non-empty no request ever yields an empty page. -/
theorem claim_C4_pagination {α : Type _} (p idx n : Nat) (rows : List α) (hp : 0 < p) :
    (n ≤ pageCount p n * p ∧ ∀ m, n ≤ m * p → pageCount p n ≤ m) ∧
    (pageCount p rows.length ≤ idx →
      paginate p idx rows = paginate p (pageCount p rows.length - 1) rows) ∧
    (rows ≠ [] → paginate p idx rows ≠ []) := by
  refine ⟨⟨pageCount_ge p n hp, fun m hm => pageCount_min p n m hp hm⟩, ?_, ?_⟩
  · intro hge
    unfold paginate
    rw [Nat.min_eq_right (by omega), Nat.min_eq_right (le_refl _)]
  · intro hne
    have hlen : 0 < rows.length := List.length_pos.mpr hne
    unfold paginate
    intro hemp
    rw [List.take_eq_nil_iff] at hemp
    rcases hemp with h1 | h1
    · omega
    · rw [List.drop_eq_nil_iff] at h1
      have h2 : min idx (pageCount p rows.length - 1) * p ≤
          (pageCount p rows.length - 1) * p :=
        Nat.mul_le_mul_right p (Nat.min_le_right _ _)
      have h3 := pageCount_last p rows.length hp hlen
      omega

/-- C4, witness: three rows at page size two — two pages, an out-of-range
request clamps to the last page, and no page is empty. -/
theorem claim_C4_pagination_witness :
    (3 ≤ pageCount 2 3 * 2 ∧ ∀ m, 3 ≤ m * 2 → pageCount 2 3 ≤ m) ∧
    (pageCount 2 (["a", "b", "c"] : List String).length ≤ 7 →
      paginate 2 7 ["a", "b", "c"] =
        paginate 2 (pageCount 2 (["a", "b", "c"] : List String).length - 1) ["a", "b", "c"]) ∧
    ((["a", "b", "c"] : List String) ≠ [] → paginate 2 7 ["a", "b", "c"] ≠ []) :=
  claim_C4_pagination 2 7 3 ["a", "b", "c"] (by decide)

/-! ### View State (spec §3) and claim C7 -/

/-- Modelled from the spec: the View State of §3 — search query, optional
sort key (column index, ascending flag), page index and size, and the
column visibility sequence. -/
structure ViewState where
  query : String
  sortKey : Option (Nat × Bool)
  pageIdx : Nat
  pageSize : Nat
  colVis : List Bool

/-- Modelled from the spec: View Engine steps 1–2 — filter, then sort when
a sort key is set.  Visibility is not an input of either step. -/
def matchedRows (rows : List (List Cell)) (vs : ViewState) : List (List Cell) :=
  match vs.sortKey with
  | none => filterRows vs.query rows
  | some (ci, asc) => sortRows ci asc (filterRows vs.query rows)

/-- Modelled from the spec: the full pipeline, ending with pagination. -/
def viewPage (rows : List (List Cell)) (vs : ViewState) : List (List Cell) :=
  paginate vs.pageSize vs.pageIdx (matchedRows rows vs)

/-- Modelled from the spec: rendering a row keeps exactly the cells of
visible columns (a column missing from the visibility list defaults to
visible), in order. -/
def applyVis (vis : List Bool) (r : List Cell) : List Cell :=
  ((r.enum).filter (fun pr => vis.getD pr.1 true)).map Prod.snd

/-- Modelled from the spec: the rendered page — visibility enters the
pipeline only here. -/
def renderPage (rows : List (List Cell)) (vs : ViewState) : List (List Cell) :=
  (viewPage rows vs).map (applyVis vs.colVis)

/-! ### Claim C7 (visibility noninterference) -/

/-- C7: two view states differing only in column visibility produce the
same matched row sequence and the same page (same rows, same order);
rendering applies visibility only by selecting, per row, a subsequence of
its cells — so visibility can change which cell values appear but never
which rows match or how they are ordered. -/
theorem claim_C7_visibility (rows : List (List Cell)) (q : String)
    (sk : Option (Nat × Bool)) (pIdx pSz : Nat) (v1 v2 : List Bool) :
    matchedRows rows ⟨q, sk, pIdx, pSz, v1⟩ = matchedRows rows ⟨q, sk, pIdx, pSz, v2⟩ ∧
    viewPage rows ⟨q, sk, pIdx, pSz, v1⟩ = viewPage rows ⟨q, sk, pIdx, pSz, v2⟩ ∧
    renderPage rows ⟨q, sk, pIdx, pSz, v1⟩ =
      (viewPage rows ⟨q, sk, pIdx, pSz, v2⟩).map (applyVis v1) ∧
    (∀ r : List Cell, (applyVis v1 r).Sublist r) := by
  refine ⟨rfl, rfl, rfl, ?_⟩
  intro r
  have h1 : ((r.enum.filter (fun pr => v1.getD pr.1 true)).map Prod.snd).Sublist
      (r.enum.map Prod.snd) :=
    List.Sublist.map Prod.snd (List.filter_sublist r.enum)
  rw [List.enum_map_snd r] at h1
  exact h1

/-! ### Application state (embedded from src/script.js and the matching
script in src/unnamed/part_000) -/

/-- A parsed row object as PapaParse builds it with `header: true`: an
insertion-ordered association of field name to cell (JavaScript object
semantics). -/
abbrev RecObj := List (String × Cell)

/-- The DataTable instance: the rows and headers it was created over. -/
structure TableInst where
  rowsData : List RecObj
  headers : List String
deriving DecidableEq, Repr

/-- What the table container element currently shows: the initial page
markup, the loading spinner, the rebuilt table shell, or an error
message. -/
inductive ContainerView where
  | startup : ContainerView
  | loading : ContainerView
  | tableShell : ContainerView
  | errorMsg : ContainerView
deriving DecidableEq, Repr

/-- The page's mutable state: the global `csvData`, the global `dataTable`
instance, and the container contents. -/
structure AppState where
  csvData : List RecObj
  table : Option TableInst
  container : ContainerView
deriving DecidableEq, Repr

/-- What a completed parse reports: `results.errors`, `results.data`,
`results.meta.fields`. -/
structure ParseOutcome where
  errors : List String
  data : List RecObj
  fields : List String
deriving DecidableEq, Repr

/-- Embedded from `displayData` (src/script.js lines 61–65, 83–97 and
src/unnamed/part_000 lines 1231–1256): on empty data it alerts and
returns before touching the table header or destroying the existing
DataTable; otherwise the old instance is destroyed and a new one is
created over the given data and headers. -/
def displayDataStep (st : AppState) (data : List RecObj) (headers : List String) : AppState :=
  if data = [] then st
  else { st with table := some ⟨data, headers⟩ }

/-- Embedded from the `handleFileUpload` complete callback (src/script.js
lines 43–52): when `results.errors` is non-empty the callback alerts and
returns — before `csvData = results.data` runs; otherwise `csvData` is
assigned and `displayData` is invoked. -/
def uploadComplete (st : AppState) (res : ParseOutcome) : AppState :=
  if res.errors ≠ [] then st
  else displayDataStep { st with csvData := res.data } res.data res.fields

/-- Embedded from `loadDefaultCSV` (src/script.js lines 158–218): the
container is overwritten with a loading indicator before the fetch; on a
reported parse error the callback returns, leaving that indicator; on
success the container is rebuilt as the table shell, `csvData` is
assigned, and `displayData` runs. -/
def defaultLoadComplete (st : AppState) (res : ParseOutcome) : AppState :=
  if res.errors ≠ [] then { st with container := ContainerView.loading }
  else displayDataStep
    { st with csvData := res.data, container := ContainerView.tableShell }
    res.data res.fields

/-! ### Claim C5 (atomic replacement on parse failure) -/

/-- C5: when a parse reports any error, the upload path leaves the whole
state exactly as it was, and the default-load path leaves the record
store — the global csvData and the displayed DataTable instance —
unchanged (its container, however, already shows the loading indicator
put up before the fetch; loadDefaultCSV only ever runs once, at startup,
from the empty initial state). -/
theorem claim_C5_atomic (st : AppState) (res : ParseOutcome)
    (herr : res.errors ≠ []) :
    uploadComplete st res = st ∧
    (defaultLoadComplete st res).csvData = st.csvData ∧
    (defaultLoadComplete st res).table = st.table := by
  refine ⟨?_, ?_, ?_⟩
  · unfold uploadComplete
    rw [if_pos herr]
  · unfold defaultLoadComplete
    rw [if_pos herr]
  · unfold defaultLoadComplete
    rw [if_pos herr]

/-- C5, witness: a failing parse against a state holding a loaded table. -/
theorem claim_C5_atomic_witness :
    uploadComplete
        ⟨[[("A", Cell.int 1)]], some ⟨[[("A", Cell.int 1)]], ["A"]⟩, ContainerView.tableShell⟩
        ⟨["MissingQuotes"], [], []⟩ =
      ⟨[[("A", Cell.int 1)]], some ⟨[[("A", Cell.int 1)]], ["A"]⟩, ContainerView.tableShell⟩ ∧
    (defaultLoadComplete
        ⟨[[("A", Cell.int 1)]], some ⟨[[("A", Cell.int 1)]], ["A"]⟩, ContainerView.tableShell⟩
        ⟨["MissingQuotes"], [], []⟩).csvData = [[("A", Cell.int 1)]] ∧
    (defaultLoadComplete
        ⟨[[("A", Cell.int 1)]], some ⟨[[("A", Cell.int 1)]], ["A"]⟩, ContainerView.tableShell⟩
        ⟨["MissingQuotes"], [], []⟩).table = some ⟨[[("A", Cell.int 1)]], ["A"]⟩ :=
  claim_C5_atomic
    ⟨[[("A", Cell.int 1)]], some ⟨[[("A", Cell.int 1)]], ["A"]⟩, ContainerView.tableShell⟩
    ⟨["MissingQuotes"], [], []⟩ (by decide)

/-! ### Claim C10 (empty-parse frame effect) -/

/-- C10: a parse that succeeds with zero records replaces the global
csvData with the empty list, but `displayData` returns at its emptiness
check before destroying or re-initializing the table, so the previously
displayed DataTable instance (and the container) stay exactly as they
were, still holding their old rows. -/
theorem claim_C10_empty_parse (st : AppState) (res : ParseOutcome)
    (h1 : res.errors = []) (h2 : res.data = []) :
    uploadComplete st res = { st with csvData := [] } ∧
    (uploadComplete st res).table = st.table ∧
    (uploadComplete st res).container = st.container ∧
    (∀ (s : AppState) (hs : List String), displayDataStep s [] hs = s) := by
  have h3 : uploadComplete st res = { st with csvData := [] } := by
    unfold uploadComplete
    rw [if_neg (by simp [h1]), h2]
    unfold displayDataStep
    rw [if_pos rfl]
  refine ⟨h3, by rw [h3], by rw [h3], ?_⟩
  intro s hs
  unfold displayDataStep
  rw [if_pos rfl]

/-- C10, witness: a successful zero-record parse against a state holding a
loaded table — csvData is emptied, the table survives. -/
theorem claim_C10_empty_parse_witness :
    uploadComplete
        ⟨[[("A", Cell.int 1)]], some ⟨[[("A", Cell.int 1)]], ["A"]⟩, ContainerView.tableShell⟩
        ⟨[], [], ["A"]⟩ =
      ⟨[], some ⟨[[("A", Cell.int 1)]], ["A"]⟩, ContainerView.tableShell⟩ ∧
    (uploadComplete
        ⟨[[("A", Cell.int 1)]], some ⟨[[("A", Cell.int 1)]], ["A"]⟩, ContainerView.tableShell⟩
        ⟨[], [], ["A"]⟩).table = some ⟨[[("A", Cell.int 1)]], ["A"]⟩ ∧
    (uploadComplete
        ⟨[[("A", Cell.int 1)]], some ⟨[[("A", Cell.int 1)]], ["A"]⟩, ContainerView.tableShell⟩
        ⟨[], [], ["A"]⟩).container = ContainerView.tableShell ∧
    (∀ (s : AppState) (hs : List String), displayDataStep s [] hs = s) :=
  claim_C10_empty_parse
    ⟨[[("A", Cell.int 1)]], some ⟨[[("A", Cell.int 1)]], ["A"]⟩, ContainerView.tableShell⟩
    ⟨[], [], ["A"]⟩ rfl rfl

/-! ### Preference store (embedded from `savePreferences` /
`loadPreferences`, src/unnamed/part_000 lines 1592–1667) -/

/-- A parsed preference snapshot; a field is `none` when the stored JSON
lacks it or it fails its schema check (`preferences.pageLength` falsy,
`Array.isArray(preferences.visibleColumns)` false, etc.). -/
structure PrefSnapshot where
  pageLength : Option Int
  visibleColumns : Option (List Bool)
  sortOrder : Option (List (Nat × Bool))
deriving DecidableEq, Repr

/-- The state of the `csvWebappPreferences` localStorage key: absent,
present but not parseable as JSON (JSON.parse throws), or parsed. -/
inductive StoredPref where
  | absent : StoredPref
  | corrupt : StoredPref
  | valid (p : PrefSnapshot) : StoredPref
deriving DecidableEq, Repr

/-- The DataTable settings `loadPreferences` manipulates. -/
structure DTState where
  pageLen : Int
  colVis : List Bool
  order : List (Nat × Bool)
deriving DecidableEq, Repr

/-- `dataTable.column(index).visible(v)`: throws (models the library
rejecting an out-of-range column selector) unless the index is in
range. -/
def setVisE (cur : List Bool) (i : Nat) (v : Bool) : Except String (List Bool) :=
  if i < cur.length then .ok (cur.set i v) else .error "column index out of range"

/-- Embedded from the `visibleColumns.forEach` loop of `loadPreferences`:
each entry is applied only under the guard
`index < dataTable.columns().data().length`; `colCount` is that constant
column count. -/
def applyVisListE (colCount : Nat) : List Bool → Nat → List Bool → Except String (List Bool)
  | cur, _, [] => .ok cur
  | cur, i, v :: rest =>
    if i < colCount then
      match setVisE cur i v with
      | .ok cur2 => applyVisListE colCount cur2 (i + 1) rest
      | .error e => .error e
    else applyVisListE colCount cur (i + 1) rest

/-- Embedded from `loadPreferences`: `if (preferences.pageLength)` — the
page length applies only when present and truthy (0 is falsy). -/
def applyPageLen (p : PrefSnapshot) (dt : DTState) : DTState :=
  match p.pageLength with
  | some n => if n ≠ 0 then { dt with pageLen := n } else dt
  | none => dt

/-- Embedded from `loadPreferences`: the sort order applies when present
and an array. -/
def applySortOrder (p : PrefSnapshot) (dt : DTState) : DTState :=
  match p.sortOrder with
  | some o => { dt with order := o }
  | none => dt

/-- Embedded from the body of `loadPreferences`'s try block: page length,
then guarded column visibility, then sort order; any thrown error
propagates as `.error`. -/
def applyPrefs (p : PrefSnapshot) (dt : DTState) : Except String DTState :=
  match p.visibleColumns with
  | some vs =>
    match applyVisListE (applyPageLen p dt).colVis.length (applyPageLen p dt).colVis 0 vs with
    | .ok cv => .ok (applySortOrder p { applyPageLen p dt with colVis := cv })
    | .error e => .error e
  | none => .ok (applySortOrder p (applyPageLen p dt))

/-- Embedded from `loadPreferences` (part_000 lines 1631–1667): a missing
key does nothing; a corrupt key makes `JSON.parse` throw, which the
try/catch swallows, keeping the current settings; a parsed snapshot is
applied, and any error thrown while applying is likewise swallowed. -/
def loadPreferences (sp : StoredPref) (dt : DTState) : DTState :=
  match sp with
  | .absent => dt
  | .corrupt => dt
  | .valid p =>
    match applyPrefs p dt with
    | .ok dt2 => dt2
    | .error _ => dt

theorem applyPageLen_colVis (p : PrefSnapshot) (dt : DTState) :
    (applyPageLen p dt).colVis = dt.colVis := by
  unfold applyPageLen
  cases p.pageLength with
  | none => rfl
  | some n => by_cases h : n ≠ 0 <;> simp [h]

theorem applySortOrder_colVis (p : PrefSnapshot) (dt : DTState) :
    (applySortOrder p dt).colVis = dt.colVis := by
  unfold applySortOrder
  cases p.sortOrder with
  | none => rfl
  | some o => rfl

theorem applyVisListE_ok (cc : Nat) :
    ∀ (vs cur : List Bool) (i : Nat), cc ≤ cur.length →
      ∃ cur2, applyVisListE cc cur i vs = .ok cur2 ∧
        cur2.length = cur.length ∧
        ∀ j : Nat, cur2[j]? =
          if i ≤ j ∧ j < cc ∧ j - i < vs.length then vs[j - i]? else cur[j]? := by
  intro vs
  induction vs with
  | nil =>
    intro cur i _
    refine ⟨cur, rfl, rfl, ?_⟩
    intro j
    rw [if_neg]
    rintro ⟨-, -, h3⟩
    simp at h3
  | cons v rest ih =>
    intro cur i hcc
    by_cases hi : i < cc
    · have hset : setVisE cur i v = .ok (cur.set i v) := by
        unfold setVisE
        rw [if_pos (by omega)]
      have hlen : (cur.set i v).length = cur.length := List.length_set cur i v
      obtain ⟨cur2, hok, hl2, hget⟩ := ih (cur.set i v) (i + 1) (by omega)
      refine ⟨cur2, ?_, by omega, ?_⟩
      · show (if i < cc then
            match setVisE cur i v with
            | .ok cur2 => applyVisListE cc cur2 (i + 1) rest
            | .error e => .error e
          else applyVisListE cc cur (i + 1) rest) = .ok cur2
        rw [if_pos hi, hset]
        exact hok
      · intro j
        rw [hget j]
        rcases Nat.lt_trichotomy j i with hj | hj | hj
        · have hc1 : ¬ (i + 1 ≤ j ∧ j < cc ∧ j - (i + 1) < rest.length) := by
            rintro ⟨h1, -, -⟩
            omega
          have hc2 : ¬ (i ≤ j ∧ j < cc ∧ j - i < (v :: rest).length) := by
            rintro ⟨h1, -, -⟩
            omega
          rw [if_neg hc1, if_neg hc2]
          exact List.getElem?_set_ne (by omega)
        · subst hj
          have hc1 : ¬ (j + 1 ≤ j ∧ j < cc ∧ j - (j + 1) < rest.length) := by
            rintro ⟨h1, -, -⟩
            omega
          have hc2 : j ≤ j ∧ j < cc ∧ j - j < (v :: rest).length :=
            ⟨le_refl j, hi, by simp⟩
          rw [if_neg hc1, if_pos hc2]
          have h1 : (cur.set j v)[j]? = some v :=
            List.getElem?_set_eq_of_lt v (by omega)
          rw [h1]
          simp
        · by_cases hcond : j < cc ∧ j - i < rest.length + 1
          · have hc1 : i + 1 ≤ j ∧ j < cc ∧ j - (i + 1) < rest.length :=
              ⟨by omega, hcond.1, by omega⟩
            have hc2 : i ≤ j ∧ j < cc ∧ j - i < (v :: rest).length :=
              ⟨by omega, hcond.1, by simp only [List.length_cons]; omega⟩
            rw [if_pos hc1, if_pos hc2]
            have hsub : j - i = (j - (i + 1)) + 1 := by omega
            rw [hsub, List.getElem?_cons_succ]
          · have hc1 : ¬ (i + 1 ≤ j ∧ j < cc ∧ j - (i + 1) < rest.length) := by
              rintro ⟨h1, h2, h3⟩
              exact hcond ⟨h2, by omega⟩
            have hc2 : ¬ (i ≤ j ∧ j < cc ∧ j - i < (v :: rest).length) := by
              rintro ⟨h1, h2, h3⟩
              refine hcond ⟨h2, ?_⟩
              simp only [List.length_cons] at h3
              omega
            rw [if_neg hc1, if_neg hc2]
            exact List.getElem?_set_ne (by omega)
    · obtain ⟨cur2, hok, hl2, hget⟩ := ih cur (i + 1) hcc
      refine ⟨cur2, ?_, hl2, ?_⟩
      · show (if i < cc then
            match setVisE cur i v with
            | .ok cur2 => applyVisListE cc cur2 (i + 1) rest
            | .error e => .error e
          else applyVisListE cc cur (i + 1) rest) = .ok cur2
        rw [if_neg hi]
        exact hok
      · intro j
        rw [hget j]
        rw [if_neg (by rintro ⟨h1, h2, h3⟩; omega),
          if_neg (by rintro ⟨h1, h2, h3⟩; omega)]

theorem applyPrefs_ok (p : PrefSnapshot) (dt : DTState) :
    ∃ dt2, applyPrefs p dt = .ok dt2 ∧ dt2.colVis.length = dt.colVis.length ∧
      ∀ vs, p.visibleColumns = some vs →
        ∀ j : Nat, dt2.colVis[j]? =
          if j < vs.length ∧ j < dt.colVis.length then vs[j]? else dt.colVis[j]? := by
  unfold applyPrefs
  cases hv : p.visibleColumns with
  | none =>
    refine ⟨applySortOrder p (applyPageLen p dt), rfl, ?_, ?_⟩
    · rw [applySortOrder_colVis, applyPageLen_colVis]
    · intro vs hvs
      exact Option.noConfusion hvs
  | some vs0 =>
    obtain ⟨cur2, hok, hl2, hget⟩ := applyVisListE_ok (applyPageLen p dt).colVis.length vs0
      (applyPageLen p dt).colVis 0 (le_refl _)
    dsimp only
    rw [hok]
    refine ⟨applySortOrder p { applyPageLen p dt with colVis := cur2 }, rfl, ?_, ?_⟩
    · rw [applySortOrder_colVis]
      show cur2.length = dt.colVis.length
      rw [hl2, applyPageLen_colVis]
    · intro vs hvs
      have hv2 : vs0 = vs := Option.some.inj hvs
      subst hv2
      intro j
      rw [applySortOrder_colVis]
      show cur2[j]? = _
      rw [hget j]
      have hcc : (applyPageLen p dt).colVis = dt.colVis := applyPageLen_colVis p dt
      rw [hcc]
      simp only [Nat.sub_zero, Nat.zero_le, true_and]
      by_cases hc : j < vs0.length ∧ j < dt.colVis.length
      · rw [if_pos ⟨hc.2, hc.1⟩, if_pos hc]
      · rw [if_neg (fun hand => hc ⟨hand.2, hand.1⟩), if_neg hc]

/-! ### Claim C6 (preference-load defensiveness) -/

/-- C6: loading preferences never throws to the caller — an absent or
corrupt snapshot leaves the settings untouched, and applying any parsed
snapshot always succeeds (`applyPrefs` never reaches the erroring column
setter thanks to the `index < column count` guard); the visibility list
keeps its length, each in-range index takes the snapshot's value, and the
snapshot's excess entries are ignored. -/
theorem claim_C6_preferences :
    (∀ dt, loadPreferences StoredPref.absent dt = dt) ∧
    (∀ dt, loadPreferences StoredPref.corrupt dt = dt) ∧
    (∀ p dt, ∃ dt2, applyPrefs p dt = Except.ok dt2) ∧
    (∀ sp dt, (loadPreferences sp dt).colVis.length = dt.colVis.length) ∧
    (∀ p vs dt, p.visibleColumns = some vs →
      ∀ j : Nat, (loadPreferences (StoredPref.valid p) dt).colVis[j]? =
        if j < vs.length ∧ j < dt.colVis.length then vs[j]? else dt.colVis[j]?) := by
  refine ⟨fun dt => rfl, fun dt => rfl, ?_, ?_, ?_⟩
  · intro p dt
    obtain ⟨dt2, hok, -, -⟩ := applyPrefs_ok p dt
    exact ⟨dt2, hok⟩
  · intro sp dt
    cases sp with
    | absent => rfl
    | corrupt => rfl
    | valid p =>
      obtain ⟨dt2, hok, hlen, -⟩ := applyPrefs_ok p dt
      show (match applyPrefs p dt with
        | .ok d => d
        | .error _ => dt).colVis.length = dt.colVis.length
      rw [hok]
      exact hlen
  · intro p vs dt hvs j
    obtain ⟨dt2, hok, -, hget⟩ := applyPrefs_ok p dt
    show (match applyPrefs p dt with
      | .ok d => d
      | .error _ => dt).colVis[j]? = _
    rw [hok]
    exact hget vs hvs j

/-- C6, witness: a corrupt snapshot is a no-op, and a parsed snapshot whose
five-entry visibility list is longer than the current two columns applies
only the first two entries — the length stays two and index 4 stays
absent. -/
theorem claim_C6_preferences_witness :
    loadPreferences StoredPref.corrupt ⟨25, [true, true], []⟩ = ⟨25, [true, true], []⟩ ∧
    (loadPreferences
        (StoredPref.valid ⟨some 50, some [false, true, false, true, true], none⟩)
        ⟨25, [true, true], []⟩).colVis.length = 2 ∧
    (loadPreferences
        (StoredPref.valid ⟨some 50, some [false, true, false, true, true], none⟩)
        ⟨25, [true, true], []⟩).colVis[4]? = none ∧
    (loadPreferences
        (StoredPref.valid ⟨some 50, some [false, true, false, true, true], none⟩)
        ⟨25, [true, true], []⟩).colVis[0]? = some false := by
  refine ⟨claim_C6_preferences.2.1 ⟨25, [true, true], []⟩, ?_, ?_, ?_⟩
  · exact (claim_C6_preferences.2.2.2.1
      (StoredPref.valid ⟨some 50, some [false, true, false, true, true], none⟩)
      ⟨25, [true, true], []⟩).trans (by decide)
  · have h := claim_C6_preferences.2.2.2.2
      ⟨some 50, some [false, true, false, true, true], none⟩
      [false, true, false, true, true] ⟨25, [true, true], []⟩ rfl 4
    rw [h]
    decide
  · have h := claim_C6_preferences.2.2.2.2
      ⟨some 50, some [false, true, false, true, true], none⟩
      [false, true, false, true, true] ⟨25, [true, true], []⟩ rfl 0
    rw [h]
    decide

/-! ### Row objects and positional display (claim C9) -/

/-- JavaScript object assignment `obj[k] = v`: an existing key keeps its
position and gets the new value, a new key is appended. -/
def jsSet : RecObj → String → Cell → RecObj
  | [], k, v => [(k, v)]
  | (k2, v2) :: rest, k, v =>
    if k2 = k then (k2, v) :: rest else (k2, v2) :: jsSet rest k v

/-- How PapaParse builds a row object with `header: true`: assign each
field under its header name, in order (duplicate header names collapse
onto one property, last value winning). -/
def buildRecord (hs : List String) (cs : List Cell) : RecObj :=
  (hs.zip cs).foldl (fun o kv => jsSet o kv.1 kv.2) []

/-- `Object.values(row)`: the property values in insertion order. -/
def objectValues (o : RecObj) : List Cell := o.map Prod.snd

/-- Embedded from the DataTables column accessor in `displayData`
(src/script.js lines 91–97): `return Object.values(row)[index]` — the
displayed/exported cell for column position `i` is read positionally
from the parsed record, never by header-name lookup. -/
def displayCell (o : RecObj) (i : Nat) : Option Cell := (objectValues o)[i]?

/-- The rejected alternative the code comment warns about: look the cell up
by the column's header name. -/
def nameLookupCell (hs : List String) (o : RecObj) (i : Nat) : Option Cell :=
  match hs[i]? with
  | some h => o.lookup h
  | none => none

theorem jsSet_append {o : RecObj} {k : String} (v : Cell)
    (h : ∀ kv ∈ o, kv.1 ≠ k) : jsSet o k v = o ++ [(k, v)] := by
  induction o with
  | nil => rfl
  | cons kv rest ih =>
    obtain ⟨k2, v2⟩ := kv
    have hk : k2 ≠ k := h (k2, v2) (List.mem_cons_self _ _)
    show (if k2 = k then (k2, v) :: rest else (k2, v2) :: jsSet rest k v) = _
    rw [if_neg hk, ih (fun kv hm => h kv (List.mem_cons_of_mem _ hm))]
    rfl

theorem foldl_jsSet_append :
    ∀ (pairs : List (String × Cell)) (acc : RecObj),
      (∀ k ∈ pairs.map Prod.fst, ∀ kv ∈ acc, kv.1 ≠ k) →
      (pairs.map Prod.fst).Nodup →
      pairs.foldl (fun o kv => jsSet o kv.1 kv.2) acc = acc ++ pairs := by
  intro pairs
  induction pairs with
  | nil =>
    intro acc _ _
    simp
  | cons kv rest ih =>
    intro acc hdisj hnd
    obtain ⟨k, v⟩ := kv
    have h1 : jsSet acc k v = acc ++ [(k, v)] :=
      jsSet_append v (hdisj k (by simp))
    show rest.foldl (fun o kv => jsSet o kv.1 kv.2) (jsSet acc k v) = _
    rw [h1, ih (acc ++ [(k, v)]) ?_ ?_]
    · simp
    · intro k2 hk2 kv2 hkv2
      rcases List.mem_append.mp hkv2 with hm | hm
      · exact hdisj k2 (by simp [hk2]) kv2 hm
      · rw [List.mem_singleton.mp hm]
        rw [List.map_cons, List.nodup_cons] at hnd
        intro he
        exact hnd.1 (he ▸ hk2)
    · rw [List.map_cons, List.nodup_cons] at hnd
      exact hnd.2

theorem map_fst_zip_take :
    ∀ (l1 : List String) (l2 : List Cell), (l1.zip l2).map Prod.fst = l1.take l2.length := by
  intro l1
  induction l1 with
  | nil => intro l2; simp
  | cons a as ih =>
    intro l2
    cases l2 with
    | nil => simp
    | cons b bs => simp [ih bs]

theorem buildRecord_nodup (hs : List String) (cs : List Cell) (hnd : hs.Nodup) :
    buildRecord hs cs = hs.zip cs := by
  unfold buildRecord
  rw [foldl_jsSet_append (hs.zip cs) []
    (fun _ _ kv hm => absurd hm (List.not_mem_nil kv)) ?_]
  · rfl
  · rw [map_fst_zip_take]
    exact (List.take_sublist _ _).nodup hnd

theorem map_snd_zip_eq :
    ∀ (l1 : List String) (l2 : List Cell), l1.length = l2.length →
      (l1.zip l2).map Prod.snd = l2 := by
  intro l1
  induction l1 with
  | nil =>
    intro l2 h
    cases l2 with
    | nil => rfl
    | cons b bs => exact absurd h (by simp)
  | cons a as ih =>
    intro l2 h
    cases l2 with
    | nil => exact absurd h (by simp)
    | cons b bs =>
      simp only [List.zip_cons_cons, List.map_cons]
      rw [ih bs (by simpa using h)]

/-! ### Claim C9 (positional display under duplicate headers) -/

/-- C9: the displayed or exported cell at column position i is read
positionally from the parsed record object (`Object.values(row)[index]`),
never by header-name lookup: with unique headers position i holds exactly
the raw row's field i; with duplicate headers the record object collapses
onto fewer properties, display stays positional over what remains (the
concrete two-duplicate-header example shows position 0 holding the last
value, position 1 empty, while name lookup would still produce a value
at position 1). -/
theorem claim_C9_positional :
    (∀ (o : RecObj) (i : Nat), displayCell o i = (o.map Prod.snd)[i]?) ∧
    (∀ (hs : List String) (cs : List Cell) (i : Nat), hs.Nodup → hs.length = cs.length →
      displayCell (buildRecord hs cs) i = cs[i]?) ∧
    displayCell (buildRecord ["A", "A"] [Cell.int 1, Cell.int 2]) 0 = some (Cell.int 2) ∧
    displayCell (buildRecord ["A", "A"] [Cell.int 1, Cell.int 2]) 1 = none ∧
    nameLookupCell ["A", "A"] (buildRecord ["A", "A"] [Cell.int 1, Cell.int 2]) 1 =
      some (Cell.int 2) := by
  refine ⟨fun o i => rfl, ?_, by decide, by decide, by decide⟩
  intro hs cs i hnd hlen
  unfold displayCell objectValues
  rw [buildRecord_nodup hs cs hnd, map_snd_zip_eq hs cs hlen]

/-- C9, witness: with unique aligned headers, position 1 of the built
record displays the raw row's second field. -/
theorem claim_C9_positional_witness :
    displayCell (buildRecord ["Name", "Qty"] [Cell.str "W", Cell.int 5]) 1 =
      some (Cell.int 5) :=
  (claim_C9_positional.2.1 ["Name", "Qty"] [Cell.str "W", Cell.int 5] 1
    (by decide) (by decide)).trans (by decide)

end CsvApp



